import Mathlib

/-!
Verification of the intrusive binary search tree (`src/binary_tree/binary_tree.h`)
and the intrusive doubly linked list (`src/linked_list/linked_list.h`) of the
`patterns` repository.

The tree is embedded shallowly: a `tree_node*` pointer graph reachable from
`head_node` is represented by the inductive type `BTree.tree_node` (`nil` is a
null pointer, `node left data right` is a `tree_node` object with its two owned
child pointers).  The `parent` back pointer of the C++ node is represented by a
zipper context (`BTree.Ctx`): a node's position in the tree determines its
chain of ancestors, and every C++ loop that climbs `parent` pointers becomes a
structural walk over that context.  The stored `data` is `Int` (the tests of
the repository instantiate the template at `int`).

The list is embedded at the pointer level: nodes live in a store indexed by
`Nat` addresses, and every line of the C++ that assigns one `next_`/`prev_`
field becomes one functional store update, in the same order, with each field
read performed against the store produced by the previous line.
-/

namespace BTree

/-- The structure reachable from a `tree_node*` pointer through the owned
`left`/`right` child pointers (`binary_tree.h:73-94`): `nil` is `nullptr`,
`node l d r` is a node whose `left` points to `l`, whose `data` is `d` and
whose `right` points to `r`.  The `parent` field is not stored here: it is
determined by the node's position (see `Ctx`). -/
inductive tree_node where
  | nil : tree_node
  | node (left : tree_node) (data : Int) (right : tree_node) : tree_node
deriving DecidableEq, Repr

/-- Which child of its parent a node is.  `onLeft` means the node is its
parent's `left` child. -/
inductive Side where
  | onLeft : Side
  | onRight : Side
deriving DecidableEq, Repr

/-- One step of the `parent` chain of a position in the tree: the side the
position hangs off its parent, the parent's `data`, and the parent's other
child subtree. -/
structure Crumb where
  side : Side
  pdata : Int
  sib : tree_node
deriving DecidableEq, Repr

/-- The full `parent` chain of a position, innermost parent first.  An empty
context is a node whose `parent` is `nullptr` (the head node). -/
abbrev Ctx := List Crumb

/-- A position in a tree, as held by `base_iterator::pos`
(`binary_tree.h:437`): the subtree hanging at the node, plus the parent
chain. -/
abbrev Pos := tree_node × Ctx

/-- Rebuild the whole tree from a position: reattach the focus subtree to its
ancestors.  `plug t ctx` is the tree reachable from `head_node` when the node
at context `ctx` holds subtree `t`. -/
def plug : tree_node → Ctx → tree_node
  | t, [] => t
  | t, ⟨Side.onLeft, d, s⟩ :: ctx => plug (tree_node.node t d s) ctx
  | t, ⟨Side.onRight, d, s⟩ :: ctx => plug (tree_node.node s d t) ctx

/-- `tree_node::get_leftest` (`binary_tree.h:100-105`): from `this`, follow
`left` pointers while `left` is non-null.  Descending one `left` link pushes
one crumb (the child is on its parent's left).  The C++ dereferences `this`,
so the `nil` case below is never reached in a valid call; it returns its
argument unchanged as junk. -/
def get_leftest : tree_node → Ctx → Pos
  | tree_node.nil, ctx => (tree_node.nil, ctx)
  | tree_node.node tree_node.nil d r, ctx => (tree_node.node tree_node.nil d r, ctx)
  | tree_node.node (tree_node.node a w b) d r, ctx =>
      get_leftest (tree_node.node a w b) (⟨Side.onLeft, d, r⟩ :: ctx)

/-- `tree_node::get_rightest` (`binary_tree.h:116-121`): follow `right`
pointers while `right` is non-null. -/
def get_rightest : tree_node → Ctx → Pos
  | tree_node.nil, ctx => (tree_node.nil, ctx)
  | tree_node.node l d tree_node.nil, ctx => (tree_node.node l d tree_node.nil, ctx)
  | tree_node.node l d (tree_node.node a w b), ctx =>
      get_rightest (tree_node.node a w b) (⟨Side.onRight, d, l⟩ :: ctx)

/-- The ascent loop of `tree_node::get_next` (`binary_tree.h:146-150`):
`for (; node->parent and (node->parent->right == node); node = node->parent);
return node->parent;` — climb while the current node is its parent's right
child, then return the parent (absent when the climb runs off the root). -/
def ascend_right : tree_node → Ctx → Option Pos
  | _, [] => none
  | t, ⟨Side.onRight, d, s⟩ :: ctx => ascend_right (tree_node.node s d t) ctx
  | t, ⟨Side.onLeft, d, s⟩ :: ctx => some (tree_node.node t d s, ctx)

/-- `tree_node::get_next` (`binary_tree.h:133-151`): if `this->right` is
non-null the successor is the leftmost node of the right subtree, otherwise
climb `parent` pointers as in `ascend_right`.  Never called with a null
`this` by the iterator code; the `nil` case is junk. -/
def get_next : tree_node → Ctx → Option Pos
  | tree_node.nil, _ => none
  | tree_node.node l d tree_node.nil, ctx => ascend_right (tree_node.node l d tree_node.nil) ctx
  | tree_node.node l d (tree_node.node a w b), ctx =>
      some (get_leftest (tree_node.node a w b) (⟨Side.onRight, d, l⟩ :: ctx))

/-- The ascent loop of `tree_node::get_prev` (`binary_tree.h:177-181`): climb
while the current node is its parent's left child, then return the parent. -/
def ascend_left : tree_node → Ctx → Option Pos
  | _, [] => none
  | t, ⟨Side.onLeft, d, s⟩ :: ctx => ascend_left (tree_node.node t d s) ctx
  | t, ⟨Side.onRight, d, s⟩ :: ctx => some (tree_node.node s d t, ctx)

/-- `tree_node::get_prev` (`binary_tree.h:164-182`): mirror image of
`get_next`. -/
def get_prev : tree_node → Ctx → Option Pos
  | tree_node.nil, _ => none
  | tree_node.node tree_node.nil d r, ctx => ascend_left (tree_node.node tree_node.nil d r) ctx
  | tree_node.node (tree_node.node a w b) d r, ctx =>
      some (get_rightest (tree_node.node a w b) (⟨Side.onLeft, d, r⟩ :: ctx))

/-- `tree_node::insert` (`binary_tree.h:193-234`): recursive descent.  The
inserted node's links were already reset by the caller, so a fresh leaf
`node nil v nil` is attached at the vacant side.  `none` models the
`throw std::runtime_error("duplicate node value")` on an equal value; the
exception propagates before any tree link is assigned.  The function is only
ever invoked on a non-null node (`binary_tree::insert` checks `head_node`
first); the `nil` case is junk. -/
def node_insert : tree_node → Int → Option tree_node
  | tree_node.nil, _ => none
  | tree_node.node l d r, v =>
      if v < d then
        match l with
        | tree_node.nil => some (tree_node.node (tree_node.node tree_node.nil v tree_node.nil) d r)
        | tree_node.node a w b =>
            (node_insert (tree_node.node a w b) v).map (fun l2 => tree_node.node l2 d r)
      else if d < v then
        match r with
        | tree_node.nil => some (tree_node.node l d (tree_node.node tree_node.nil v tree_node.nil))
        | tree_node.node a w b =>
            (node_insert (tree_node.node a w b) v).map (fun r2 => tree_node.node l d r2)
      else none

/-- `tree_node::find` (`binary_tree.h:236-252`): the loop
`while (node and value != node->data) node = (value < node->data) ? left :
right`.  The null test guards every iteration, so starting from a null node
(as `binary_tree::find` does on an empty tree) yields the absent result
without dereferencing.  The context records the descent, which is the parent
chain of the found node. -/
def node_find : tree_node → Ctx → Int → Option Pos
  | tree_node.nil, _, _ => none
  | tree_node.node l d r, ctx, v =>
      if v = d then some (tree_node.node l d r, ctx)
      else if v < d then node_find l (⟨Side.onLeft, d, r⟩ :: ctx) v
      else node_find r (⟨Side.onRight, d, l⟩ :: ctx) v

/-- The `data` of the leftmost node of a subtree (what
`this->get_next()->data` reads in the two-child removal case).  Junk `0` on
`nil`, never reached. -/
def leftest_data : tree_node → Int
  | tree_node.nil => 0
  | tree_node.node tree_node.nil d _ => d
  | tree_node.node (tree_node.node a w b) _ _ => leftest_data (tree_node.node a w b)

/-- Effect of `next_node->detach_from_parent()` (`binary_tree.h:262-275`) when
`next_node` is the leftmost node strictly inside this subtree: the leftmost
node's parent sets its `left` pointer to null.  The detached node keeps its
`right` child, but that child is now unreachable from the head, so the
reachable structure simply loses the leftmost node together with its right
subtree.  Only called when the subtree's `left` is non-null; other cases are
junk. -/
def detach_leftest : tree_node → tree_node
  | tree_node.node (tree_node.node tree_node.nil _ _) d r => tree_node.node tree_node.nil d r
  | tree_node.node (tree_node.node (tree_node.node a w b) x y) d r =>
      tree_node.node (detach_leftest (tree_node.node (tree_node.node a w b) x y)) d r
  | t => t

/-- `tree_node::remove` (`binary_tree.h:310-364`) applied at a position,
yielding the tree reachable from the (unmodified) `head_node` pointer
afterwards.  Branch by branch:
* no children — `detach_from_parent()`: with a parent, the parent's child
  pointer becomes null (`plug nil ctx`); at the root (`ctx = []`) the method
  does nothing and `head_node` still references the node, so the reachable
  tree is the node itself;
* only one child — `replace(child)`: with a parent, the child takes the
  node's place (`plug child ctx`); at the root, `replace` updates no parent
  pointer but nulls the node's own links, and `head_node` still references
  the node, so the reachable tree is `node nil d nil`;
* two children and the successor is the right child (`this->right ==
  next_node`, i.e. the right child has no left child) — `replace(right)`,
  same as the one-child case: the left subtree is not reattached anywhere;
* two children, successor deeper — `std::swap(data, next_node->data)` then
  `next_node->detach_from_parent()` (see `detach_leftest`). -/
def remove_at : tree_node → Ctx → tree_node
  | tree_node.nil, ctx => plug tree_node.nil ctx
  | tree_node.node tree_node.nil d tree_node.nil, [] => tree_node.node tree_node.nil d tree_node.nil
  | tree_node.node tree_node.nil _ tree_node.nil, c :: ctx => plug tree_node.nil (c :: ctx)
  | tree_node.node tree_node.nil d (tree_node.node _ _ _), [] => tree_node.node tree_node.nil d tree_node.nil
  | tree_node.node tree_node.nil _ (tree_node.node a w b), c :: ctx =>
      plug (tree_node.node a w b) (c :: ctx)
  | tree_node.node (tree_node.node _ _ _) d tree_node.nil, [] => tree_node.node tree_node.nil d tree_node.nil
  | tree_node.node (tree_node.node a w b) _ tree_node.nil, c :: ctx =>
      plug (tree_node.node a w b) (c :: ctx)
  | tree_node.node (tree_node.node _ _ _) d (tree_node.node tree_node.nil _ _), [] =>
      tree_node.node tree_node.nil d tree_node.nil
  | tree_node.node (tree_node.node _ _ _) _ (tree_node.node tree_node.nil w b), c :: ctx =>
      plug (tree_node.node tree_node.nil w b) (c :: ctx)
  | tree_node.node (tree_node.node a w b) _ (tree_node.node (tree_node.node p q u) x y), ctx =>
      plug
        (tree_node.node (tree_node.node a w b)
          (leftest_data (tree_node.node (tree_node.node p q u) x y))
          (detach_leftest (tree_node.node (tree_node.node p q u) x y)))
        ctx

/-- The `binary_tree` aggregate (`binary_tree.h:51-66,572-574`):
`head_node` (null when the tree is empty) and `node_count`. -/
structure binary_tree where
  head_node : tree_node
  node_count : Nat
deriving DecidableEq, Repr

/-- A default-constructed `binary_tree` (`binary_tree.h:65-66`). -/
def tree_empty : binary_tree := ⟨tree_node.nil, 0⟩

/-- The error reported by a duplicate-value insertion
(`binary_tree.h:232`). -/
inductive InsErr where
  | duplicate_value : InsErr
deriving DecidableEq, Repr

/-- `binary_tree::insert` (`binary_tree.h:475-490`): reset the node's links,
attach it as the head if the tree is empty, otherwise descend from the head.
The result pairs the tree object after the call with the error that
propagated, if any: when `tree_node::insert` throws, the `node_count += 1`
line is skipped and no tree link has been assigned, so the object is exactly
the one before the call. -/
def insert (s : binary_tree) (v : Int) : binary_tree × Option InsErr :=
  match s.head_node with
  | tree_node.nil => (⟨tree_node.node tree_node.nil v tree_node.nil, s.node_count + 1⟩, none)
  | tree_node.node l d r =>
      match node_insert (tree_node.node l d r) v with
      | some h2 => (⟨h2, s.node_count + 1⟩, none)
      | none => (s, some InsErr.duplicate_value)

/-- `binary_tree::erase` (`binary_tree.h:492-496`): `iter.pos->remove()` then
`node_count -= 1`.  `head_node` is never reassigned by `erase`; `remove_at`
already yields the structure reachable from the unchanged head pointer. -/
def erase (s : binary_tree) (p : Pos) : binary_tree :=
  ⟨remove_at p.1 p.2, s.node_count - 1⟩

/-- `binary_tree::size` (`binary_tree.h:498-501`). -/
def size (s : binary_tree) : Nat := s.node_count

/-- `binary_tree::empty` (`binary_tree.h:503-506`): `head_node == nullptr`. -/
def empty (s : binary_tree) : Bool := s.head_node == tree_node.nil

/-- `binary_tree::clear` (`binary_tree.h:508-512`). -/
def clear (_ : binary_tree) : binary_tree := ⟨tree_node.nil, 0⟩

/-- `binary_tree::find` (`binary_tree.h:514-524`): `head_node->find(value)`;
on an empty tree the null head enters the guarded loop and the absent result
comes back (see `node_find`). -/
def find (s : binary_tree) (v : Int) : Option Pos := node_find s.head_node [] v

/-- `binary_tree::begin` (`binary_tree.h:526-550`): leftmost position, or the
end iterator (absent position) when the head is null. -/
def tree_begin (s : binary_tree) : Option Pos :=
  match s.head_node with
  | tree_node.nil => none
  | tree_node.node l d r => some (get_leftest (tree_node.node l d r) [])

/-- The first position visited by reverse iteration
(`binary_tree.h:562-565`): `rbegin()` dereferences `--end()`, i.e. the
rightmost node; absent when the tree is empty. -/
def tree_rbegin (s : binary_tree) : Option Pos :=
  match s.head_node with
  | tree_node.nil => none
  | tree_node.node l d r => some (get_rightest (tree_node.node l d r) [])

/-- `binary_tree::end` (`binary_tree.h:552-560`): the absent position. -/
def tree_end : Option Pos := none

/-- `base_iterator::increment` (`binary_tree.h:439-449`): on the end iterator
it evaluates `this->tree->head_node->get_leftest()`; when `head_node` is null
that expression reads `node->left` through a null pointer, modeled by the
outer `none`.  Otherwise the new position (possibly the end position) is
returned inside `some`. -/
def iter_increment (s : binary_tree) : Option Pos → Option (Option Pos)
  | none =>
      match s.head_node with
      | tree_node.nil => none
      | tree_node.node l d r => some (some (get_leftest (tree_node.node l d r) []))
  | some (t, ctx) => some (get_next t ctx)

/-- `base_iterator::decrement` (`binary_tree.h:451-461`): mirror image of
`iter_increment`, using `get_rightest`/`get_prev`. -/
def iter_decrement (s : binary_tree) : Option Pos → Option (Option Pos)
  | none =>
      match s.head_node with
      | tree_node.nil => none
      | tree_node.node l d r => some (some (get_rightest (tree_node.node l d r) []))
  | some (t, ctx) => some (get_prev t ctx)

/-- The `data` at a position (`base_iterator::operator*`,
`binary_tree.h:430-433`).  Junk `0` on a null position (dereferencing `end()`
is undefined and never done here). -/
def data_of : tree_node → Int
  | tree_node.nil => 0
  | tree_node.node _ d _ => d

/-- Values visited by repeatedly dereferencing and incrementing an iterator,
starting at the given position, for at most `fuel` steps (the traversal
`for (it = begin(); it != end(); ++it)`). -/
def iter_list : Option Pos → Nat → List Int
  | _, 0 => []
  | none, _ => []
  | some (t, ctx), Nat.succ fuel => data_of t :: iter_list (get_next t ctx) fuel

/-- Values visited by reverse iteration (`rbegin()` to `rend()`): repeated
`get_prev` from the rightmost node. -/
def rev_iter_list : Option Pos → Nat → List Int
  | _, 0 => []
  | none, _ => []
  | some (t, ctx), Nat.succ fuel => data_of t :: rev_iter_list (get_prev t ctx) fuel

/-- In-order value sequence of the reachable structure (left subtree, node,
right subtree) — the specification-level contents of the tree. -/
def inorder : tree_node → List Int
  | tree_node.nil => []
  | tree_node.node l d r => inorder l ++ d :: inorder r

/-- Number of nodes reachable from a `tree_node*` by `left`/`right`
traversal. -/
def tn_size : tree_node → Nat
  | tree_node.nil => 0
  | tree_node.node l _ r => tn_size l + 1 + tn_size r

/-- All reachable values satisfy a predicate. -/
def tn_all (p : Int → Prop) : tree_node → Prop
  | tree_node.nil => True
  | tree_node.node l d r => tn_all p l ∧ p d ∧ tn_all p r

/-- The binary-search ordering invariant of the data model (spec §3): every
value in a node's left subtree is strictly less than the node's data, every
value in its right subtree strictly greater. -/
def BST : tree_node → Prop
  | tree_node.nil => True
  | tree_node.node l d r =>
      tn_all (fun x => x < d) l ∧ tn_all (fun x => d < x) r ∧ BST l ∧ BST r

instance tn_all_dec (p : Int → Prop) [DecidablePred p] : (t : tree_node) → Decidable (tn_all p t)
  | tree_node.nil => Decidable.isTrue trivial
  | tree_node.node l d r =>
      have : Decidable (tn_all p l) := tn_all_dec p l
      have : Decidable (tn_all p r) := tn_all_dec p r
      decidable_of_iff (tn_all p l ∧ p d ∧ tn_all p r) Iff.rfl

instance BST_dec : (t : tree_node) → Decidable (BST t)
  | tree_node.nil => Decidable.isTrue trivial
  | tree_node.node l d r =>
      have : Decidable (BST l) := BST_dec l
      have : Decidable (BST r) := BST_dec r
      decidable_of_iff (tn_all (fun x => x < d) l ∧ tn_all (fun x => d < x) r ∧ BST l ∧ BST r)
        Iff.rfl

/-- The values that forward iteration still visits after it has finished the
focus subtree and climbs into the context: for each ancestor that holds the
focus on its left, the ancestor's value followed by its right subtree. -/
def ctx_after : Ctx → List Int
  | [] => []
  | ⟨Side.onLeft, d, s⟩ :: ctx => d :: (inorder s ++ ctx_after ctx)
  | ⟨Side.onRight, _, _⟩ :: ctx => ctx_after ctx

/-- The values that reverse iteration still visits after it has finished the
focus subtree: mirror image of `ctx_after`. -/
def ctx_before : Ctx → List Int
  | [] => []
  | ⟨Side.onRight, d, s⟩ :: ctx => d :: ((inorder s).reverse ++ ctx_before ctx)
  | ⟨Side.onLeft, _, _⟩ :: ctx => ctx_before ctx

theorem iter_list_none (fuel : Nat) : iter_list none fuel = [] := by
  cases fuel <;> rfl

theorem rev_iter_list_none (fuel : Nat) : rev_iter_list none fuel = [] := by
  cases fuel <;> rfl

/-- `get_leftest` reaches a node with no left child, and the forward visit
starting there covers exactly the in-order values of the subtree it started
from, then the context's pending values. -/
theorem get_leftest_visit (t : tree_node) (ctx : Ctx) (ht : t ≠ tree_node.nil) :
    ∃ d r ctx2, get_leftest t ctx = (tree_node.node tree_node.nil d r, ctx2) ∧
      d :: (inorder r ++ ctx_after ctx2) = inorder t ++ ctx_after ctx := by
  induction t generalizing ctx with
  | nil => exact absurd rfl ht
  | node l d r ihl ihr =>
    cases l with
    | nil =>
      exact ⟨d, r, ctx, rfl, by simp [inorder]⟩
    | node a w b =>
      obtain ⟨d2, r2, ctx2, heq, hvis⟩ :=
        ihl (⟨Side.onLeft, d, r⟩ :: ctx) (by simp)
      refine ⟨d2, r2, ctx2, ?_, ?_⟩
      · simpa [get_leftest] using heq
      · rw [hvis]
        simp [inorder, ctx_after]

/-- `get_rightest` reaches a node with no right child; mirror of
`get_leftest_visit` for the reverse visit order. -/
theorem get_rightest_visit (t : tree_node) (ctx : Ctx) (ht : t ≠ tree_node.nil) :
    ∃ l2 d ctx2, get_rightest t ctx = (tree_node.node l2 d tree_node.nil, ctx2) ∧
      d :: ((inorder l2).reverse ++ ctx_before ctx2) =
        (inorder t).reverse ++ ctx_before ctx := by
  induction t generalizing ctx with
  | nil => exact absurd rfl ht
  | node l d r ihl ihr =>
    cases r with
    | nil =>
      exact ⟨l, d, ctx, rfl, by simp [inorder]⟩
    | node a w b =>
      obtain ⟨l2, d2, ctx2, heq, hvis⟩ :=
        ihr (⟨Side.onRight, d, l⟩ :: ctx) (by simp)
      refine ⟨l2, d2, ctx2, ?_, ?_⟩
      · simpa [get_rightest] using heq
      · rw [hvis]
        simp [inorder, ctx_before]

theorem ascend_right_none (ctx : Ctx) (t : tree_node)
    (h : ascend_right t ctx = none) : ctx_after ctx = [] := by
  induction ctx generalizing t with
  | nil => rfl
  | cons c ctx ih =>
    obtain ⟨side, d, s⟩ := c
    cases side with
    | onLeft => simp [ascend_right] at h
    | onRight =>
      simpa [ctx_after] using ih (tree_node.node s d t) (by simpa [ascend_right] using h)

theorem ascend_right_some (ctx : Ctx) (t : tree_node) (f : tree_node) (c : Ctx)
    (h : ascend_right t ctx = some (f, c)) :
    ∃ l2 d2 r2, f = tree_node.node l2 d2 r2 ∧
      d2 :: (inorder r2 ++ ctx_after c) = ctx_after ctx := by
  induction ctx generalizing t with
  | nil => simp [ascend_right] at h
  | cons cr ctx ih =>
    obtain ⟨side, d, s⟩ := cr
    cases side with
    | onLeft =>
      simp only [ascend_right, Option.some.injEq, Prod.mk.injEq] at h
      exact ⟨t, d, s, h.1.symm, by rw [← h.2]; simp [ctx_after]⟩
    | onRight =>
      simpa [ctx_after] using ih (tree_node.node s d t) (by simpa [ascend_right] using h)

theorem ascend_left_none (ctx : Ctx) (t : tree_node)
    (h : ascend_left t ctx = none) : ctx_before ctx = [] := by
  induction ctx generalizing t with
  | nil => rfl
  | cons c ctx ih =>
    obtain ⟨side, d, s⟩ := c
    cases side with
    | onRight => simp [ascend_left] at h
    | onLeft =>
      simpa [ctx_before] using ih (tree_node.node t d s) (by simpa [ascend_left] using h)

theorem ascend_left_some (ctx : Ctx) (t : tree_node) (f : tree_node) (c : Ctx)
    (h : ascend_left t ctx = some (f, c)) :
    ∃ l2 d2 r2, f = tree_node.node l2 d2 r2 ∧
      d2 :: ((inorder l2).reverse ++ ctx_before c) = ctx_before ctx := by
  induction ctx generalizing t with
  | nil => simp [ascend_left] at h
  | cons cr ctx ih =>
    obtain ⟨side, d, s⟩ := cr
    cases side with
    | onRight =>
      simp only [ascend_left, Option.some.injEq, Prod.mk.injEq] at h
      exact ⟨s, d, t, h.1.symm, by rw [← h.2]; simp [ctx_before]⟩
    | onLeft =>
      simpa [ctx_before] using ih (tree_node.node t d s) (by simpa [ascend_left] using h)

/-- Forward iteration from a node position visits the node's value, the
node's right subtree in order, then the context's pending values. -/
theorem iter_list_visit (fuel : Nat) :
    ∀ (l : tree_node) (v : Int) (r : tree_node) (ctx : Ctx),
      1 + (inorder r).length + (ctx_after ctx).length ≤ fuel →
      iter_list (some (tree_node.node l v r, ctx)) fuel =
        v :: (inorder r ++ ctx_after ctx) := by
  induction fuel using Nat.strong_induction_on with
  | _ fuel ih =>
    intro l v r ctx hfuel
    cases fuel with
    | zero => omega
    | succ n =>
      rw [iter_list]
      simp only [data_of]
      cases r with
      | nil =>
        rw [get_next]
        cases hres : ascend_right (tree_node.node l v tree_node.nil) ctx with
        | none =>
          rw [iter_list_none, ascend_right_none _ _ hres]
          simp [inorder]
        | some p =>
          obtain ⟨f, c⟩ := p
          obtain ⟨l2, d2, r2, hf, hvis⟩ := ascend_right_some _ _ _ _ hres
          subst hf
          have hlen : (ctx_after ctx).length =
              1 + ((inorder r2).length + (ctx_after c).length) := by
            rw [← hvis]; simp only [List.length_cons, List.length_append]; omega
          have hb : 1 + (inorder r2).length + (ctx_after c).length ≤ n := by
            simp only [inorder, List.length_nil] at hfuel; omega
          rw [ih n (Nat.lt_succ_self n) l2 d2 r2 c hb, hvis]
          simp [inorder]
      | node a w b =>
        rw [get_next]
        obtain ⟨d2, r2, ctx2, heq, hvis⟩ :=
          get_leftest_visit (tree_node.node a w b) (⟨Side.onRight, v, l⟩ :: ctx) (by simp)
        have hvis2 : d2 :: (inorder r2 ++ ctx_after ctx2) =
            inorder (tree_node.node a w b) ++ ctx_after ctx := by
          rw [hvis]; simp [ctx_after]
        have hlen : (inorder (tree_node.node a w b)).length + (ctx_after ctx).length =
            1 + ((inorder r2).length + (ctx_after ctx2).length) := by
          rw [← List.length_append, ← hvis2]
          simp only [List.length_cons, List.length_append]; omega
        have hb : 1 + (inorder r2).length + (ctx_after ctx2).length ≤ n := by omega
        rw [heq, ih n (Nat.lt_succ_self n) _ d2 r2 ctx2 hb, hvis2]

/-- Reverse iteration from a node position visits the node's value, the
node's left subtree in reverse order, then the context's pending values. -/
theorem rev_iter_list_visit (fuel : Nat) :
    ∀ (l : tree_node) (v : Int) (r : tree_node) (ctx : Ctx),
      1 + (inorder l).length + (ctx_before ctx).length ≤ fuel →
      rev_iter_list (some (tree_node.node l v r, ctx)) fuel =
        v :: ((inorder l).reverse ++ ctx_before ctx) := by
  induction fuel using Nat.strong_induction_on with
  | _ fuel ih =>
    intro l v r ctx hfuel
    cases fuel with
    | zero => omega
    | succ n =>
      rw [rev_iter_list]
      simp only [data_of]
      cases l with
      | nil =>
        rw [get_prev]
        cases hres : ascend_left (tree_node.node tree_node.nil v r) ctx with
        | none =>
          rw [rev_iter_list_none, ascend_left_none _ _ hres]
          simp [inorder]
        | some p =>
          obtain ⟨f, c⟩ := p
          obtain ⟨l2, d2, r2, hf, hvis⟩ := ascend_left_some _ _ _ _ hres
          subst hf
          have hlen : (ctx_before ctx).length =
              1 + ((inorder l2).length + (ctx_before c).length) := by
            rw [← hvis]
            simp only [List.length_cons, List.length_append, List.length_reverse]; omega
          have hb : 1 + (inorder l2).length + (ctx_before c).length ≤ n := by
            simp only [inorder, List.length_nil] at hfuel; omega
          rw [ih n (Nat.lt_succ_self n) l2 d2 r2 c hb, hvis]
          simp [inorder]
      | node a w b =>
        rw [get_prev]
        obtain ⟨l2, d2, ctx2, heq, hvis⟩ :=
          get_rightest_visit (tree_node.node a w b) (⟨Side.onLeft, v, r⟩ :: ctx) (by simp)
        have hvis2 : d2 :: ((inorder l2).reverse ++ ctx_before ctx2) =
            (inorder (tree_node.node a w b)).reverse ++ ctx_before ctx := by
          rw [hvis]; simp [ctx_before]
        have hlen : (inorder (tree_node.node a w b)).length + (ctx_before ctx).length =
            1 + ((inorder l2).length + (ctx_before ctx2).length) := by
          have := congrArg List.length hvis2
          simp only [List.length_cons, List.length_append, List.length_reverse] at this
          omega
        have hb : 1 + (inorder l2).length + (ctx_before ctx2).length ≤ n := by omega
        rw [heq, ih n (Nat.lt_succ_self n) l2 d2 tree_node.nil ctx2 hb, hvis2]

/-- The full forward traversal `begin()`→`end()` lists the tree's in-order
values. -/
theorem iter_list_begin (s : binary_tree) (fuel : Nat)
    (h : (inorder s.head_node).length ≤ fuel) :
    iter_list (tree_begin s) fuel = inorder s.head_node := by
  cases hh : s.head_node with
  | nil => simp only [tree_begin, hh, iter_list_none, inorder]
  | node l d r =>
    simp only [tree_begin, hh]
    obtain ⟨d2, r2, ctx2, heq, hvis⟩ := get_leftest_visit (tree_node.node l d r) [] (by simp)
    have hvis2 : d2 :: (inorder r2 ++ ctx_after ctx2) = inorder (tree_node.node l d r) := by
      rw [hvis]; simp [ctx_after]
    have hlen : (inorder (tree_node.node l d r)).length =
        1 + ((inorder r2).length + (ctx_after ctx2).length) := by
      rw [← hvis2]; simp only [List.length_cons, List.length_append]; omega
    rw [hh] at h
    have hb : 1 + (inorder r2).length + (ctx_after ctx2).length ≤ fuel := by omega
    rw [heq, iter_list_visit fuel _ d2 r2 ctx2 hb, hvis2]

/-- The full reverse traversal `rbegin()`→`rend()` lists the tree's in-order
values reversed. -/
theorem rev_iter_list_rbegin (s : binary_tree) (fuel : Nat)
    (h : (inorder s.head_node).length ≤ fuel) :
    rev_iter_list (tree_rbegin s) fuel = (inorder s.head_node).reverse := by
  cases hh : s.head_node with
  | nil => simp only [tree_rbegin, hh, rev_iter_list_none, inorder, List.reverse_nil]
  | node l d r =>
    simp only [tree_rbegin, hh]
    obtain ⟨l2, d2, ctx2, heq, hvis⟩ := get_rightest_visit (tree_node.node l d r) [] (by simp)
    have hvis2 : d2 :: ((inorder l2).reverse ++ ctx_before ctx2) =
        (inorder (tree_node.node l d r)).reverse := by
      rw [hvis]; simp [ctx_before]
    have hlen : (inorder (tree_node.node l d r)).length =
        1 + ((inorder l2).length + (ctx_before ctx2).length) := by
      have := congrArg List.length hvis2
      simp only [List.length_cons, List.length_append, List.length_reverse] at this
      omega
    rw [hh] at h
    have hb : 1 + (inorder l2).length + (ctx_before ctx2).length ≤ fuel := by omega
    rw [heq, rev_iter_list_visit fuel l2 d2 tree_node.nil ctx2 hb, hvis2]

theorem tn_all_iff (p : Int → Prop) (t : tree_node) :
    tn_all p t ↔ ∀ x ∈ inorder t, p x := by
  induction t with
  | nil => simp [tn_all, inorder]
  | node l d r ihl ihr =>
    simp only [tn_all, inorder, List.mem_append, List.mem_cons, ihl, ihr]
    constructor
    · rintro ⟨h1, h2, h3⟩ x (hx | rfl | hx)
      · exact h1 x hx
      · exact h2
      · exact h3 x hx
    · intro h
      exact ⟨fun x hx => h x (Or.inl hx), h d (Or.inr (Or.inl rfl)),
        fun x hx => h x (Or.inr (Or.inr hx))⟩

/-- The in-order value sequence of a search tree is strictly ascending. -/
theorem inorder_pairwise (t : tree_node) (h : BST t) :
    List.Pairwise (· < ·) (inorder t) := by
  induction t with
  | nil => simp [inorder]
  | node l d r ihl ihr =>
    simp only [BST] at h
    obtain ⟨hl, hr, hbl, hbr⟩ := h
    rw [inorder, List.pairwise_append]
    refine ⟨ihl hbl, ?_, ?_⟩
    · rw [List.pairwise_cons]
      exact ⟨(tn_all_iff _ _).1 hr, ihr hbr⟩
    · intro x hx y hy
      rcases List.mem_cons.1 hy with rfl | hy
      · exact (tn_all_iff _ _).1 hl x hx
      · exact lt_trans ((tn_all_iff _ _).1 hl x hx) ((tn_all_iff _ _).1 hr y hy)

/-- A successful `tree_node::insert` adds exactly the inserted value to the
reachable contents. -/
theorem node_insert_perm (t : tree_node) (v : Int) :
    ∀ t2, node_insert t v = some t2 → (inorder t2).Perm (v :: inorder t) := by
  induction t with
  | nil => intro t2 h; simp [node_insert] at h
  | node l d r ihl ihr =>
    intro t2 h
    rw [node_insert.eq_def] at h
    simp only [] at h
    by_cases hvd : v < d
    · rw [if_pos hvd] at h
      cases l with
      | nil =>
        simp only [Option.some.injEq] at h
        subst h
        simp [inorder]
      | node a w b =>
        simp only [] at h
        cases hres : node_insert (tree_node.node a w b) v with
        | none => rw [hres] at h; simp at h
        | some l2 =>
          rw [hres] at h
          simp only [Option.map_some', Option.some.injEq] at h
          subst h
          exact (ihl l2 hres).append_right (d :: inorder r)
    · rw [if_neg hvd] at h
      by_cases hdv : d < v
      · rw [if_pos hdv] at h
        cases r with
        | nil =>
          simp only [Option.some.injEq] at h
          subst h
          have h2 : (inorder l ++ [v, d]).Perm (v :: (inorder l ++ [d])) :=
            List.perm_middle
          have h1 : (inorder l ++ [d, v]).Perm (inorder l ++ [v, d]) :=
            List.Perm.append_left (inorder l) (List.Perm.swap v d [])
          exact h1.trans h2
        | node a w b =>
          simp only [] at h
          cases hres : node_insert (tree_node.node a w b) v with
          | none => rw [hres] at h; simp at h
          | some r2 =>
            rw [hres] at h
            simp only [Option.map_some', Option.some.injEq] at h
            subst h
            have hp := ihr r2 hres
            have h1 : (inorder l ++ d :: inorder r2).Perm
                (inorder l ++ d :: (v :: inorder (tree_node.node a w b))) :=
              List.Perm.append_left (inorder l) (hp.cons d)
            have h2 : (inorder l ++ d :: v :: inorder (tree_node.node a w b)).Perm
                (inorder l ++ v :: d :: inorder (tree_node.node a w b)) :=
              List.Perm.append_left (inorder l) (List.Perm.swap v d _)
            have h3 : (inorder l ++ v :: (d :: inorder (tree_node.node a w b))).Perm
                (v :: (inorder l ++ d :: inorder (tree_node.node a w b))) :=
              List.perm_middle
            exact (h1.trans h2).trans h3
      · rw [if_neg hdv] at h
        simp at h

/-- Inserting a value already reachable from a node of a search tree throws
the duplicate error (`none`). -/
theorem node_insert_mem_none (t : tree_node) (v : Int) (hb : BST t)
    (hv : v ∈ inorder t) : node_insert t v = none := by
  induction t with
  | nil => simp [inorder] at hv
  | node l d r ihl ihr =>
    simp only [BST] at hb
    obtain ⟨hl, hr, hbl, hbr⟩ := hb
    rw [inorder] at hv
    rw [node_insert.eq_def]
    simp only []
    rcases List.mem_append.1 hv with hvl | hvdr
    · have hvd : v < d := (tn_all_iff _ _).1 hl v hvl
      rw [if_pos hvd]
      cases l with
      | nil => simp [inorder] at hvl
      | node a w b => simp only [ihl hbl hvl, Option.map_none']
    · rcases List.mem_cons.1 hvdr with rfl | hvr
      · rw [if_neg (lt_irrefl v), if_neg (lt_irrefl v)]
      · have hdv : d < v := (tn_all_iff _ _).1 hr v hvr
        rw [if_neg (by omega), if_pos hdv]
        cases r with
        | nil => simp [inorder] at hvr
        | node a w b => simp only [ihr hbr hvr, Option.map_none']

/-- Inserting a value not yet present into a search tree succeeds. -/
theorem node_insert_not_mem_some (t : tree_node) (v : Int) (hb : BST t)
    (ht : t ≠ tree_node.nil) (hv : v ∉ inorder t) :
    ∃ t2, node_insert t v = some t2 := by
  induction t with
  | nil => exact absurd rfl ht
  | node l d r ihl ihr =>
    simp only [BST] at hb
    obtain ⟨hl, hr, hbl, hbr⟩ := hb
    rw [node_insert.eq_def]
    simp only []
    rcases lt_trichotomy v d with hvd | rfl | hdv
    · rw [if_pos hvd]
      cases l with
      | nil => exact ⟨_, rfl⟩
      | node a w b =>
        obtain ⟨l2, hres⟩ := ihl hbl (by simp)
          (fun hm => hv (by rw [inorder]; exact List.mem_append.2 (Or.inl hm)))
        refine ⟨tree_node.node l2 d r, ?_⟩
        show (node_insert (tree_node.node a w b) v).map (fun l2 => tree_node.node l2 d r) =
          some (tree_node.node l2 d r)
        rw [hres]
        rfl
    · exact absurd (by rw [inorder]; exact List.mem_append.2 (Or.inr (by simp))) hv
    · rw [if_neg (by omega), if_pos hdv]
      cases r with
      | nil => exact ⟨_, rfl⟩
      | node a w b =>
        obtain ⟨r2, hres⟩ := ihr hbr (by simp)
          (fun hm => hv (by rw [inorder]; exact List.mem_append.2 (Or.inr (List.mem_cons.2 (Or.inr hm)))))
        refine ⟨tree_node.node l d r2, ?_⟩
        show (node_insert (tree_node.node a w b) v).map (fun r2 => tree_node.node l d r2) =
          some (tree_node.node l d r2)
        rw [hres]
        rfl

/-- A successful `tree_node::insert` preserves the search ordering. -/
theorem node_insert_BST (t : tree_node) (v : Int) :
    ∀ t2, BST t → node_insert t v = some t2 → BST t2 := by
  induction t with
  | nil => intro t2 _ h; simp [node_insert] at h
  | node l d r ihl ihr =>
    intro t2 hb h
    simp only [BST] at hb
    obtain ⟨hl, hr, hbl, hbr⟩ := hb
    rw [node_insert.eq_def] at h
    simp only [] at h
    by_cases hvd : v < d
    · rw [if_pos hvd] at h
      cases l with
      | nil =>
        simp only [Option.some.injEq] at h
        subst h
        exact ⟨⟨trivial, hvd, trivial⟩, hr, ⟨trivial, trivial, trivial, trivial⟩, hbr⟩
      | node a w b =>
        simp only [] at h
        cases hres : node_insert (tree_node.node a w b) v with
        | none => rw [hres] at h; simp at h
        | some l2 =>
          rw [hres] at h
          simp only [Option.map_some', Option.some.injEq] at h
          subst h
          have hpm := node_insert_perm _ v l2 hres
          refine ⟨?_, hr, ihl l2 hbl hres, hbr⟩
          rw [tn_all_iff]
          intro x hx
          rcases List.mem_cons.1 (hpm.mem_iff.1 hx) with rfl | hxl
          · exact hvd
          · exact (tn_all_iff _ _).1 hl x hxl
    · rw [if_neg hvd] at h
      by_cases hdv : d < v
      · rw [if_pos hdv] at h
        cases r with
        | nil =>
          simp only [Option.some.injEq] at h
          subst h
          exact ⟨hl, ⟨trivial, hdv, trivial⟩, hbl, ⟨trivial, trivial, trivial, trivial⟩⟩
        | node a w b =>
          simp only [] at h
          cases hres : node_insert (tree_node.node a w b) v with
          | none => rw [hres] at h; simp at h
          | some r2 =>
            rw [hres] at h
            simp only [Option.map_some', Option.some.injEq] at h
            subst h
            have hpm := node_insert_perm _ v r2 hres
            refine ⟨hl, ?_, hbl, ihr r2 hbr hres⟩
            rw [tn_all_iff]
            intro x hx
            rcases List.mem_cons.1 (hpm.mem_iff.1 hx) with rfl | hxr
            · exact hdv
            · exact (tn_all_iff _ _).1 hr x hxr
      · rw [if_neg hdv] at h
        simp at h

/-- `binary_tree::insert` on a fresh value: succeeds, bumps `node_count`, and
the new contents are the old values plus the new one. -/
theorem insert_ok (s : binary_tree) (v : Int) (hb : BST s.head_node)
    (hv : v ∉ inorder s.head_node) :
    ∃ h2, BTree.insert s v = (⟨h2, s.node_count + 1⟩, none) ∧ BST h2 ∧
      (inorder h2).Perm (v :: inorder s.head_node) := by
  cases hh : s.head_node with
  | nil =>
    refine ⟨tree_node.node tree_node.nil v tree_node.nil, ?_, ?_, ?_⟩
    · simp [BTree.insert, hh]
    · simp [BST, tn_all]
    · simp [hh, inorder]
  | node l d r =>
    rw [hh] at hb hv
    obtain ⟨t2, hres⟩ :=
      node_insert_not_mem_some (tree_node.node l d r) v hb (by simp) hv
    refine ⟨t2, ?_, node_insert_BST _ v t2 hb hres, (node_insert_perm _ v t2 hres)⟩
    simp [BTree.insert, hh, hres]

/-- Folding `binary_tree::insert` over a list of values, keeping the tree
object of each call (a duplicate would leave it unchanged). -/
def insert_list (s : binary_tree) : List Int → binary_tree
  | [] => s
  | v :: vs => insert_list (BTree.insert s v).1 vs

theorem insert_list_ok : ∀ (vs : List Int) (s : binary_tree), BST s.head_node →
    vs.Nodup → (∀ v ∈ vs, v ∉ inorder s.head_node) →
    BST (insert_list s vs).head_node ∧
    (inorder (insert_list s vs).head_node).Perm (inorder s.head_node ++ vs) ∧
    (insert_list s vs).node_count = s.node_count + vs.length := by
  intro vs
  induction vs with
  | nil =>
    intro s hb _ _
    exact ⟨hb, by simp [insert_list], by simp [insert_list]⟩
  | cons v vs ih =>
    intro s hb hnd hmem
    obtain ⟨h2, heq, hb2, hperm⟩ := insert_ok s v hb (hmem v (by simp))
    have hmem2 : ∀ w ∈ vs, w ∉ inorder h2 := by
      intro w hw hwin
      rcases List.mem_cons.1 (hperm.mem_iff.1 hwin) with rfl | hin
      · exact (List.nodup_cons.1 hnd).1 hw
      · exact hmem w (List.mem_cons_of_mem v hw) hin
    obtain ⟨hbf, hpf, hcf⟩ :=
      ih ⟨h2, s.node_count + 1⟩ hb2 (List.nodup_cons.1 hnd).2 hmem2
    have hstep : insert_list s (v :: vs) = insert_list ⟨h2, s.node_count + 1⟩ vs := by
      rw [insert_list, heq]
    refine ⟨by rwa [hstep], ?_, ?_⟩
    · rw [hstep]
      have hc1 : (inorder h2 ++ vs).Perm ((v :: inorder s.head_node) ++ vs) :=
        hperm.append_right vs
      have hc2 : (v :: (inorder s.head_node ++ vs)).Perm (inorder s.head_node ++ v :: vs) :=
        List.perm_middle.symm
      exact (hpf.trans hc1).trans hc2
    · rw [hstep, hcf]
      simp only [List.length_cons]
      omega

/-- CLAIM C3 — For every tree built by any sequence of valid (non-duplicate)
insert operations, iterating forward from `begin()` to `end()` yields the
inserted values in strictly ascending order, and iterating in reverse
(`rbegin()` to `rend()`) yields them in strictly descending order. -/
theorem C3_traversal_sorted (vs : List Int) (hnd : vs.Nodup) :
    (iter_list (tree_begin (insert_list tree_empty vs)) vs.length).Perm vs ∧
    List.Pairwise (· < ·) (iter_list (tree_begin (insert_list tree_empty vs)) vs.length) ∧
    (rev_iter_list (tree_rbegin (insert_list tree_empty vs)) vs.length).Perm vs ∧
    List.Pairwise (· > ·) (rev_iter_list (tree_rbegin (insert_list tree_empty vs)) vs.length) := by
  obtain ⟨hb, hperm, _⟩ :=
    insert_list_ok vs tree_empty (by simp [tree_empty, BST]) hnd
      (by simp [tree_empty, inorder])
  have hperm' : (inorder (insert_list tree_empty vs).head_node).Perm vs := by
    simpa [tree_empty, inorder] using hperm
  have hlen : (inorder (insert_list tree_empty vs).head_node).length = vs.length :=
    hperm'.length_eq
  have hfw := iter_list_begin (insert_list tree_empty vs) vs.length (le_of_eq hlen)
  have hrv := rev_iter_list_rbegin (insert_list tree_empty vs) vs.length (le_of_eq hlen)
  rw [hfw, hrv]
  have hpair := inorder_pairwise _ hb
  refine ⟨hperm', hpair, (List.reverse_perm _).trans hperm', ?_⟩
  rw [List.pairwise_reverse]
  exact hpair

/-- Witness for C3 at the concrete insertion sequence `[2, 1, 3]`. -/
theorem C3_traversal_sorted_witness :
    (iter_list (tree_begin (insert_list tree_empty [2, 1, 3])) ([2, 1, 3] : List Int).length).Perm [2, 1, 3] ∧
    List.Pairwise (· < ·) (iter_list (tree_begin (insert_list tree_empty [2, 1, 3])) ([2, 1, 3] : List Int).length) ∧
    (rev_iter_list (tree_rbegin (insert_list tree_empty [2, 1, 3])) ([2, 1, 3] : List Int).length).Perm [2, 1, 3] ∧
    List.Pairwise (· > ·) (rev_iter_list (tree_rbegin (insert_list tree_empty [2, 1, 3])) ([2, 1, 3] : List Int).length) :=
  C3_traversal_sorted [2, 1, 3] (by decide)

/-- CLAIM C4 — Inserting a node whose data equals the data of a node already
in the tree reports the recoverable duplicate-value error, and the returned
tree object (the state after the exception propagates) is exactly the tree
before the call: the link structure and the node count are unmodified. -/
theorem C4_duplicate_insert (s : binary_tree) (v : Int) (hb : BST s.head_node)
    (hv : v ∈ inorder s.head_node) :
    BTree.insert s v = (s, some InsErr.duplicate_value) := by
  cases hh : s.head_node with
  | nil => rw [hh] at hv; simp [inorder] at hv
  | node l d r =>
    rw [hh] at hb hv
    have hres := node_insert_mem_none (tree_node.node l d r) v hb hv
    simp [BTree.insert, hh, hres]

/-- Witness for C4: inserting the duplicate value `1` into the tree built from
`[2, 1, 3]` reports the error and leaves the tree object unchanged. -/
theorem C4_duplicate_insert_witness :
    BTree.insert (insert_list tree_empty [2, 1, 3]) 1 =
      (insert_list tree_empty [2, 1, 3], some InsErr.duplicate_value) :=
  C4_duplicate_insert (insert_list tree_empty [2, 1, 3]) 1 (by decide) (by decide)

/-- `binary_tree::find` never finds a value that is not reachable: the guarded
descent loop runs off a null child and returns the absent node. -/
theorem node_find_not_mem : ∀ (t : tree_node) (v : Int) (ctx : Ctx), BST t →
    v ∉ inorder t → node_find t ctx v = none := by
  intro t
  induction t with
  | nil => intro v ctx _ _; rfl
  | node l d r ihl ihr =>
    intro v ctx hb hv
    simp only [BST] at hb
    obtain ⟨hl, hr, hbl, hbr⟩ := hb
    rw [inorder] at hv
    rw [node_find]
    have hvd : v ≠ d := fun h =>
      hv (List.mem_append.2 (Or.inr (List.mem_cons.2 (Or.inl h))))
    rw [if_neg hvd]
    by_cases hlt : v < d
    · rw [if_pos hlt]
      exact ihl v _ hbl (fun hm => hv (List.mem_append.2 (Or.inl hm)))
    · rw [if_neg hlt]
      exact ihr v _ hbr
        (fun hm => hv (List.mem_append.2 (Or.inr (List.mem_cons.2 (Or.inr hm)))))

/-- CLAIM C1 (evaluation of the code at the failing input) — Build the tree
from the inserts `[10, 5, 15, 12, 20]`; its in-order contents are
`[5, 10, 12, 15, 20]`.  `find(15)` yields the iterator at the node holding
`15`, which has two children and whose in-order successor is its right child
`20`.  `erase` on that iterator then runs `replace(this->right)`, which hangs
`20` in place of `15` but reattaches the left child `12` nowhere, so the
traversal afterwards is `[5, 10, 20]`: the tree lost `12` in addition to the
erased `15`, refuting "visits exactly the previously held values minus the
erased one" (which would be `[5, 10, 12, 20]`). -/
theorem C1_erase_loses_subtree :
    inorder (insert_list tree_empty [10, 5, 15, 12, 20]).head_node = [5, 10, 12, 15, 20] ∧
    find (insert_list tree_empty [10, 5, 15, 12, 20]) 15 =
      some (tree_node.node (tree_node.node tree_node.nil 12 tree_node.nil) 15
          (tree_node.node tree_node.nil 20 tree_node.nil),
        [⟨Side.onRight, 10, tree_node.node tree_node.nil 5 tree_node.nil⟩]) ∧
    inorder (erase (insert_list tree_empty [10, 5, 15, 12, 20])
        (tree_node.node (tree_node.node tree_node.nil 12 tree_node.nil) 15
            (tree_node.node tree_node.nil 20 tree_node.nil),
          [⟨Side.onRight, 10, tree_node.node tree_node.nil 5 tree_node.nil⟩])).head_node =
      [5, 10, 20] ∧
    ([5, 10, 20] : List Int) ≠ [5, 10, 12, 20] := by decide

/-- CLAIM C2 (evaluation of the code at the failing input) — Insert the single
value `5` and erase it through the iterator `find(5)` returns.  `remove()` on
a childless root runs `detach_from_parent()`, which does nothing (no parent),
and `erase` never reassigns `head_node`; so afterwards `node_count = 0` while
the erased node is still reachable from `head_node` (one reachable node), and
`head_node` is not absent although `node_count == 0` — both halves of the
claimed invariant fail. -/
theorem C2_erase_breaks_invariant :
    find (insert_list tree_empty [5]) 5 = some (tree_node.node tree_node.nil 5 tree_node.nil, []) ∧
    (erase (insert_list tree_empty [5]) (tree_node.node tree_node.nil 5 tree_node.nil, [])).node_count = 0 ∧
    (erase (insert_list tree_empty [5]) (tree_node.node tree_node.nil 5 tree_node.nil, [])).head_node =
      tree_node.node tree_node.nil 5 tree_node.nil ∧
    tn_size (erase (insert_list tree_empty [5])
      (tree_node.node tree_node.nil 5 tree_node.nil, [])).head_node = 1 := by decide

/-- CLAIM C5 (evaluation of the code at the failing input) — After inserting
`5` and erasing it (through the iterator `find(5)` returned), `find(5)` still
returns an iterator dereferencing to `5` — not `end()` — because `erase` left
`head_node` pointing at the detached node. -/
theorem C5_find_after_erase :
    find (erase (insert_list tree_empty [5]) (tree_node.node tree_node.nil 5 tree_node.nil, [])) 5 =
      some (tree_node.node tree_node.nil 5 tree_node.nil, []) ∧
    find (erase (insert_list tree_empty [5]) (tree_node.node tree_node.nil 5 tree_node.nil, [])) 5 ≠
      tree_end := by decide

/-- CLAIM C6 (counterexample) — The claim says incrementing or decrementing an
`end()` iterator yields the end sentinel and never undefined behavior.  On the
one-node tree holding `5`, incrementing `end()` yields the position of the
node `5`, not the end sentinel; and on the empty tree the increment evaluates
`head_node->get_leftest()` through the null `head_node` (the outer `none`
below), which is a null-pointer dereference, not a safe absent result. -/
theorem C6_counterexample :
    iter_increment (insert_list tree_empty [5]) none ≠ some tree_end ∧
    iter_increment tree_empty none = none := by decide

/-- CLAIM C6 (amended) — Searching for a value not present in the tree
(including searching an empty tree) yields the end sentinel and never an
error; but incrementing (resp. decrementing) an `end()` iterator of a
non-empty tree wraps around to the first (leftmost) (resp. last, rightmost)
position rather than staying at the end sentinel, and on an empty tree it
dereferences the null `head_node` (modeled as the absent outer result). -/
theorem C6_amended_find_end_iterators (s : binary_tree) (v : Int)
    (hb : BST s.head_node) :
    (v ∉ inorder s.head_node → find s v = none) ∧
    (s.head_node ≠ tree_node.nil →
      iter_increment s none = some (tree_begin s) ∧
      iter_decrement s none = some (tree_rbegin s)) ∧
    (s.head_node = tree_node.nil →
      iter_increment s none = none ∧ iter_decrement s none = none) := by
  refine ⟨?_, ?_, ?_⟩
  · intro hv
    exact node_find_not_mem s.head_node v [] hb hv
  · intro hne
    cases hh : s.head_node with
    | nil => exact absurd hh hne
    | node l d r =>
      exact ⟨by simp [iter_increment, tree_begin, hh], by simp [iter_decrement, tree_rbegin, hh]⟩
  · intro hnil
    exact ⟨by simp [iter_increment, hnil], by simp [iter_decrement, hnil]⟩

/-- Witness for the amended C6 on the tree built from `[2, 1, 3]` and the
absent value `7`. -/
theorem C6_amended_witness :
    ((7 : Int) ∉ inorder (insert_list tree_empty [2, 1, 3]).head_node →
      find (insert_list tree_empty [2, 1, 3]) 7 = none) ∧
    ((insert_list tree_empty [2, 1, 3]).head_node ≠ tree_node.nil →
      iter_increment (insert_list tree_empty [2, 1, 3]) none =
        some (tree_begin (insert_list tree_empty [2, 1, 3])) ∧
      iter_decrement (insert_list tree_empty [2, 1, 3]) none =
        some (tree_rbegin (insert_list tree_empty [2, 1, 3]))) ∧
    ((insert_list tree_empty [2, 1, 3]).head_node = tree_node.nil →
      iter_increment (insert_list tree_empty [2, 1, 3]) none = none ∧
      iter_decrement (insert_list tree_empty [2, 1, 3]) none = none) :=
  C6_amended_find_end_iterators (insert_list tree_empty [2, 1, 3]) 7 (by decide)

/-- Folding `binary_tree::erase` over a list of iterator positions. -/
def erase_list (s : binary_tree) : List Pos → binary_tree
  | [] => s
  | p :: ps => erase_list (erase s p) ps

/-- Each position handed to `erase` is a valid iterator of the tree at the
time of the call: a non-null node that, re-plugged into its parent chain,
forms the tree currently reachable from `head_node`. -/
inductive EraseSeqValid : binary_tree → List Pos → Prop
  | nil (s : binary_tree) : EraseSeqValid s []
  | cons (s : binary_tree) (p : Pos) (ps : List Pos) :
      p.1 ≠ tree_node.nil →
      plug p.1 p.2 = s.head_node →
      EraseSeqValid (erase s p) ps →
      EraseSeqValid s (p :: ps)

theorem erase_list_count : ∀ (ps : List Pos) (s : binary_tree),
    (erase_list s ps).node_count = s.node_count - ps.length := by
  intro ps
  induction ps with
  | nil => intro s; rfl
  | cons p ps ih =>
    intro s
    rw [erase_list, ih]
    simp only [erase, List.length_cons]
    omega

/-- CLAIM C7 — After inserting N distinct values into an initially empty tree,
`size() == N`; after then erasing K of those nodes through valid iterators,
`size() == N - K`; after `clear()`, `size() == 0` and `empty() == true`. -/
theorem C7_size_invariant (vs : List Int) (ps : List Pos) (hnd : vs.Nodup)
    (hval : EraseSeqValid (insert_list tree_empty vs) ps)
    (hk : ps.length ≤ vs.length) :
    size (insert_list tree_empty vs) = vs.length ∧
    size (erase_list (insert_list tree_empty vs) ps) = vs.length - ps.length ∧
    size (clear (erase_list (insert_list tree_empty vs) ps)) = 0 ∧
    empty (clear (erase_list (insert_list tree_empty vs) ps)) = true := by
  have hN : (insert_list tree_empty vs).node_count = vs.length := by
    have hc := (insert_list_ok vs tree_empty (by simp [tree_empty, BST]) hnd
      (by simp [tree_empty, inorder])).2.2
    simpa [tree_empty] using hc
  exact ⟨hN, by rw [size, erase_list_count, hN], rfl, rfl⟩

/-- Witness for C7: insert `[2, 1, 3]`, then erase the node holding `1`
through its iterator. -/
theorem C7_size_invariant_witness :
    size (insert_list tree_empty [2, 1, 3]) = ([2, 1, 3] : List Int).length ∧
    size (erase_list (insert_list tree_empty [2, 1, 3])
        [(tree_node.node tree_node.nil 1 tree_node.nil,
          [Crumb.mk Side.onLeft 2 (tree_node.node tree_node.nil 3 tree_node.nil)])]) =
      ([2, 1, 3] : List Int).length -
        [(tree_node.node tree_node.nil 1 tree_node.nil,
          [Crumb.mk Side.onLeft 2 (tree_node.node tree_node.nil 3 tree_node.nil)])].length ∧
    size (clear (erase_list (insert_list tree_empty [2, 1, 3])
        [(tree_node.node tree_node.nil 1 tree_node.nil,
          [Crumb.mk Side.onLeft 2 (tree_node.node tree_node.nil 3 tree_node.nil)])])) = 0 ∧
    empty (clear (erase_list (insert_list tree_empty [2, 1, 3])
        [(tree_node.node tree_node.nil 1 tree_node.nil,
          [Crumb.mk Side.onLeft 2 (tree_node.node tree_node.nil 3 tree_node.nil)])])) = true :=
  C7_size_invariant [2, 1, 3]
    [(tree_node.node tree_node.nil 1 tree_node.nil,
      [Crumb.mk Side.onLeft 2 (tree_node.node tree_node.nil 3 tree_node.nil)])]
    (by decide)
    (EraseSeqValid.cons _ _ _ (by decide) (by decide) (EraseSeqValid.nil _))
    (by decide)

end BTree

namespace LList

/-- A `linked_list::list_node` (`linked_list.h:27-47`): the stored data and
the two link fields.  Links are `Nat` addresses into the store; they are
never null in this design (a detached node points to itself). -/
structure list_node where
  data_ : Int
  next_ : Nat
  prev_ : Nat
deriving DecidableEq, Repr

/-- The memory holding every list node: address `i` holds node `st i`. -/
def Store := Nat → list_node

/-- Write the `next_` field of the node at address `i` (one C++ assignment
`<node i>.next_ = v`). -/
def set_next (st : Store) (i v : Nat) : Store :=
  fun j => if j = i then { st i with next_ := v } else st j

/-- Write the `prev_` field of the node at address `i`. -/
def set_prev (st : Store) (i v : Nat) : Store :=
  fun j => if j = i then { st i with prev_ := v } else st j

/-- Write the `data_` field of the node at address `i` (caller-side setup;
the list operations themselves never touch `data_`). -/
def set_data (st : Store) (i : Nat) (v : Int) : Store :=
  fun j => if j = i then { st j with data_ := v } else st j

/-- A store in which every node is freshly constructed (`linked_list.h:40-43`):
`next_` and `prev_` point to the node itself. -/
def init_store : Store := fun i => { data_ := 0, next_ := i, prev_ := i }

theorem set_next_next (st : Store) (i v j : Nat) :
    ((set_next st i v) j).next_ = if j = i then v else (st j).next_ := by
  by_cases h : j = i <;> simp [set_next, h]

theorem set_next_prev (st : Store) (i v j : Nat) :
    ((set_next st i v) j).prev_ = (st j).prev_ := by
  by_cases h : j = i <;> simp [set_next, h]

theorem set_next_data (st : Store) (i v j : Nat) :
    ((set_next st i v) j).data_ = (st j).data_ := by
  by_cases h : j = i <;> simp [set_next, h]

theorem set_prev_prev (st : Store) (i v j : Nat) :
    ((set_prev st i v) j).prev_ = if j = i then v else (st j).prev_ := by
  by_cases h : j = i <;> simp [set_prev, h]

theorem set_prev_next (st : Store) (i v j : Nat) :
    ((set_prev st i v) j).next_ = (st j).next_ := by
  by_cases h : j = i <;> simp [set_prev, h]

theorem set_prev_data (st : Store) (i v j : Nat) :
    ((set_prev st i v) j).data_ = (st j).data_ := by
  by_cases h : j = i <;> simp [set_prev, h]

/-- `list_node::unlink` (`linked_list.h:174-178`):
`this->prev_->next_ = this->next_; this->next_->prev_ = this->prev_;` —
each line reads its operands from the store left by the previous line. -/
def unlink (st : Store) (i : Nat) : Store :=
  let st1 := set_next st (st i).prev_ (st i).next_
  set_prev st1 (st1 i).next_ (st1 i).prev_

/-- `list_node::insert_after` (`linked_list.h:53-60`), `this` at address `i`,
inserted node at `n`:
`node.unlink(); node.next_ = this->next_; node.prev_ = this;
this->next_->prev_ = &node; this->next_ = &node;` -/
def insert_after (st : Store) (i n : Nat) : Store :=
  let st1 := unlink st n
  let st2 := set_next st1 n ((st1 i).next_)
  let st3 := set_prev st2 n i
  let st4 := set_prev st3 ((st3 i).next_) n
  set_next st4 i n

/-- `list_node::insert_before` (`linked_list.h:66-73`):
`node.unlink(); node.next_ = this; node.prev_ = this->prev_;
this->prev_->next_ = &node; this->prev_ = &node;` -/
def insert_before (st : Store) (i n : Nat) : Store :=
  let st1 := unlink st n
  let st2 := set_next st1 n i
  let st3 := set_prev st2 n ((st2 i).prev_)
  let st4 := set_next st3 ((st3 i).prev_) n
  set_prev st4 i n

/-- Range overload `list_node::insert_before(first, last)`
(`linked_list.h:102-117`), `this` at address `i`: `last_prev` is read once
into a local, every other operand is read per line. -/
def insert_before_range (st : Store) (i f l : Nat) : Store :=
  let lastPrev := (st l).prev_
  let st1 := set_next st ((st f).prev_) ((st lastPrev).next_)
  let st2 := set_prev st1 ((st1 lastPrev).next_) ((st1 f).prev_)
  let st3 := set_next st2 ((st2 i).prev_) f
  let st4 := set_prev st3 f ((st3 i).prev_)
  let st5 := set_next st4 lastPrev i
  set_prev st5 i lastPrev

/-- `list_node::remove` (`linked_list.h:124-129`): unlink, then point both
links of the removed node at itself. -/
def remove (st : Store) (i : Nat) : Store :=
  let st1 := unlink st i
  let st2 := set_next st1 i i
  set_prev st2 i i

/-- `list_node::remove_forward` (`linked_list.h:137-142`): capture
`this->next_`, remove, and return the captured address. -/
def remove_forward (st : Store) (i : Nat) : Store × Nat :=
  (remove st i, (st i).next_)

/-- `list_node::count` (`linked_list.h:85-93`): walk `next_` from `first`
until `last`, counting; fuel-bounded (the C++ loop terminates only on
well-formed lists), `none` when the fuel runs out. -/
def count (st : Store) (lastId : Nat) : Nat → Nat → Option Nat
  | cur, 0 => if cur = lastId then some 0 else none
  | cur, Nat.succ f =>
      if cur = lastId then some 0
      else (count st lastId (st cur).next_ f).map (fun k => k + 1)

/-- Values read by walking the list with the forward iterator from `cur` to
`lastId` (dereferencing each node's `data_`). -/
def to_list (st : Store) (lastId : Nat) : Nat → Nat → Option (List Int)
  | cur, 0 => if cur = lastId then some [] else none
  | cur, Nat.succ f =>
      if cur = lastId then some []
      else (to_list st lastId (st cur).next_ f).map (fun xs => (st cur).data_ :: xs)

/-- `linked_list::empty` (`linked_list.h:292`): the sentinel (at address `s`)
points to itself. -/
def lempty (st : Store) (s : Nat) : Bool := (st s).next_ == s

/-- `linked_list::size` (`linked_list.h:298-301`):
`count(*sentinal_.next_, sentinal_)`. -/
def size (st : Store) (s : Nat) (fuel : Nat) : Option Nat :=
  count st s ((st s).next_) fuel

/-- `linked_list::push_front` (`linked_list.h:389-392`):
`sentinal_.insert_after(node)`. -/
def push_front (st : Store) (s n : Nat) : Store := insert_after st s n

/-- `linked_list::push_back` (`linked_list.h:398-401`):
`sentinal_.insert_before(node)`. -/
def push_back (st : Store) (s n : Nat) : Store := insert_before st s n

/-- `linked_list::pop_front` (`linked_list.h:407-413`): guarded by `empty()`;
removes `sentinal_.next_`. -/
def pop_front (st : Store) (s : Nat) : Store :=
  if lempty st s then st else remove st ((st s).next_)

/-- `linked_list::pop_back` (`linked_list.h:419-425`): guarded by `empty()`;
removes `sentinal_.prev_`. -/
def pop_back (st : Store) (s : Nat) : Store :=
  if lempty st s then st else remove st ((st s).prev_)

/-- `linked_list::erase(pos)` (`linked_list.h:436-440`):
`pos.node_->remove_forward()`, returning the iterator at the node that
followed the removed one. -/
def erase (st : Store) (pos : Nat) : Store × Nat := remove_forward st pos

/-- `linked_list::insert(pos, node)` (`linked_list.h:317-322`):
`pos.node_->insert_before(node)`, returning the iterator at the node. -/
def insert_node (st : Store) (pos n : Nat) : Store × Nat :=
  (insert_before st pos n, n)

/-- `linked_list::insert(pos, first, last)` (`linked_list.h:361-375`): the
`first == last` no-op returns `pos` unchanged, otherwise the range is spliced
before `pos` and `first` is returned. -/
def insert_range (st : Store) (pos f l : Nat) : Store × Nat :=
  if f = l then (st, pos) else (insert_before_range st pos f l, f)

/-- Two nodes are linked as neighbors: `a.next_ == b` and `b.prev_ == a`
(the doubly-linked consistency of one edge). -/
def linked (st : Store) (a b : Nat) : Prop := (st a).next_ = b ∧ (st b).prev_ = a

instance linked_dec (st : Store) (a b : Nat) : Decidable (linked st a b) := by
  unfold linked
  exact instDecidableAnd

/-- `chain2 st a l b`: starting at node `a`, the nodes of `l` follow in order
along `next_` links (with matching `prev_` back links), ending at `b`. -/
def chain2 (st : Store) : Nat → List Nat → Nat → Prop
  | a, [], b => linked st a b
  | a, x :: xs, b => linked st a x ∧ chain2 st x xs b

instance chain2_dec (st : Store) : (a : Nat) → (l : List Nat) → (b : Nat) → Decidable (chain2 st a l b)
  | _, [], _ => linked_dec _ _ _
  | a, x :: xs, b =>
      have : Decidable (chain2 st x xs b) := chain2_dec st x xs b
      instDecidableAnd

/-- The representation invariant of a `linked_list` whose sentinel is at
address `s` and whose element nodes are `l`, in order: the cycle
`s → l₁ → … → lₖ → s` is doubly linked and the addresses are distinct. -/
def rep (st : Store) (s : Nat) (l : List Nat) : Prop :=
  chain2 st s l s ∧ (s :: l).Nodup

/-- First element of a list, or `b` when the list is empty (the node that
follows `a` along a `chain2 st a l b`). -/
def headOr (l : List Nat) (b : Nat) : Nat :=
  match l with
  | [] => b
  | x :: _ => x

instance rep_dec (st : Store) (s : Nat) (l : List Nat) : Decidable (rep st s l) := by
  unfold rep
  exact instDecidableAnd

theorem chain2_middle (st : Store) : ∀ (xs : List Nat) (a y : Nat) (ys : List Nat) (b : Nat),
    chain2 st a (xs ++ y :: ys) b ↔ chain2 st a xs y ∧ chain2 st y ys b := by
  intro xs
  induction xs with
  | nil => intro a y ys b; exact Iff.rfl
  | cons x xs ih =>
    intro a y ys b
    constructor
    · rintro ⟨h1, h2⟩
      obtain ⟨ha, hb⟩ := (ih x y ys b).1 h2
      exact ⟨⟨h1, ha⟩, hb⟩
    · rintro ⟨⟨h1, ha⟩, hb⟩
      exact ⟨h1, (ih x y ys b).2 ⟨ha, hb⟩⟩

theorem chain2_concat (st : Store) (xs : List Nat) (a q b : Nat) :
    chain2 st a (xs ++ [q]) b ↔ chain2 st a xs q ∧ linked st q b :=
  chain2_middle st xs a q [] b

theorem chain2_head_next (st : Store) (l : List Nat) (a b : Nat)
    (h : chain2 st a l b) : (st a).next_ = headOr l b := by
  cases l with
  | nil => exact h.1
  | cons x xs => exact h.1.1

/-- Last element of a list, or `a` when the list is empty (the node whose
`next_` closes a `chain2 st a l b`). -/
def lastOr (l : List Nat) (a : Nat) : Nat :=
  match l with
  | [] => a
  | x :: xs => lastOr xs x

theorem chain2_last_edge (st : Store) : ∀ (l : List Nat) (a b : Nat),
    chain2 st a l b → linked st (lastOr l a) b := by
  intro l
  induction l with
  | nil => intro a b h; exact h
  | cons x xs ih =>
    intro a b h
    exact ih x b h.2

theorem chain2_congr {st st2 : Store} : ∀ (l : List Nat) (a b : Nat),
    chain2 st a l b →
    (∀ x ∈ a :: l, (st2 x).next_ = (st x).next_) →
    (∀ x ∈ l ++ [b], (st2 x).prev_ = (st x).prev_) →
    chain2 st2 a l b := by
  intro l
  induction l with
  | nil =>
    intro a b h hn hp
    exact ⟨by rw [hn a (by simp), h.1], by rw [hp b (by simp), h.2]⟩
  | cons x xs ih =>
    intro a b h hn hp
    refine ⟨⟨?_, ?_⟩, ih x b h.2 ?_ ?_⟩
    · rw [hn a (by simp), h.1.1]
    · rw [hp x (by simp), h.1.2]
    · intro y hy
      exact hn y (List.mem_cons_of_mem a hy)
    · intro y hy
      apply hp y
      rcases List.mem_append.1 hy with hy2 | hy2
      · exact List.mem_append.2 (Or.inl (List.mem_cons_of_mem x hy2))
      · exact List.mem_append.2 (Or.inr hy2)

/-- Redirect the closing edge of a chain: if `st2` keeps every interior link
of `chain2 st a l x` but makes the last node point at `n` (with the matching
back link), the chain now ends at `n`. -/
theorem chain2_retarget {st st2 : Store} : ∀ (l : List Nat) (a x n : Nat),
    chain2 st a l x →
    (∀ y ∈ (a :: l).dropLast, (st2 y).next_ = (st y).next_) →
    (st2 (lastOr l a)).next_ = n →
    (∀ y ∈ l, (st2 y).prev_ = (st y).prev_) →
    (st2 n).prev_ = lastOr l a →
    chain2 st2 a l n := by
  intro l
  induction l with
  | nil =>
    intro a x n _ _ hq _ hnp
    exact ⟨hq, hnp⟩
  | cons z zs ih =>
    intro a x n h hn hq hp hnp
    have hdrop : (a :: z :: zs).dropLast = a :: (z :: zs).dropLast := rfl
    refine ⟨⟨?_, ?_⟩, ih z x n h.2 ?_ ?_ ?_ ?_⟩
    · rw [hn a (by rw [hdrop]; exact List.mem_cons_self a _), h.1.1]
    · rw [hp z (List.mem_cons_self z zs), h.1.2]
    · intro y hy
      apply hn y
      rw [hdrop]
      exact List.mem_cons_of_mem a hy
    · exact hq
    · intro y hy
      exact hp y (List.mem_cons_of_mem z hy)
    · exact hnp

theorem count_chain2 (st : Store) (b : Nat) : ∀ (l : List Nat) (a : Nat),
    chain2 st a l b → b ∉ l → ∀ fuel, l.length ≤ fuel →
    count st b (headOr l b) fuel = some l.length := by
  intro l
  induction l with
  | nil =>
    intro a _ _ fuel _
    cases fuel <;> simp [count, headOr]
  | cons x xs ih =>
    intro a h hb fuel hf
    cases fuel with
    | zero => simp at hf
    | succ f =>
      have hxb : x ≠ b := fun he => hb (he ▸ List.mem_cons_self x xs)
      show count st b x (Nat.succ f) = some (x :: xs).length
      rw [count, if_neg hxb, chain2_head_next st xs x b h.2,
        ih x h.2 (fun hm => hb (List.mem_cons_of_mem _ hm)) f (by simpa using hf)]
      rfl

theorem to_list_chain2 (st : Store) (b : Nat) : ∀ (l : List Nat) (a : Nat),
    chain2 st a l b → b ∉ l → ∀ fuel, l.length ≤ fuel →
    to_list st b (headOr l b) fuel = some (l.map (fun i => (st i).data_)) := by
  intro l
  induction l with
  | nil =>
    intro a _ _ fuel _
    cases fuel <;> simp [to_list, headOr]
  | cons x xs ih =>
    intro a h hb fuel hf
    cases fuel with
    | zero => simp at hf
    | succ f =>
      have hxb : x ≠ b := fun he => hb (he ▸ List.mem_cons_self x xs)
      show to_list st b x (Nat.succ f) = some ((x :: xs).map (fun i => (st i).data_))
      rw [to_list, if_neg hxb, chain2_head_next st xs x b h.2,
        ih x h.2 (fun hm => hb (List.mem_cons_of_mem _ hm)) f (by simpa using hf)]
      rfl

/-- `size()` of a well-formed list counts exactly its element nodes. -/
theorem size_rep (st : Store) (s : Nat) (l : List Nat) (h : rep st s l)
    (fuel : Nat) (hf : l.length ≤ fuel) : size st s fuel = some l.length := by
  obtain ⟨hc, hnd⟩ := h
  rw [size, chain2_head_next st l s s hc]
  exact count_chain2 st s l s hc (fun hm => (List.nodup_cons.1 hnd).1 hm) fuel hf

/-- Forward traversal of a well-formed list reads the element data in list
order. -/
theorem to_list_rep (st : Store) (s : Nat) (l : List Nat) (h : rep st s l)
    (fuel : Nat) (hf : l.length ≤ fuel) :
    to_list st s ((st s).next_) fuel = some (l.map (fun i => (st i).data_)) := by
  obtain ⟨hc, hnd⟩ := h
  rw [chain2_head_next st l s s hc]
  exact to_list_chain2 st s l s hc (fun hm => (List.nodup_cons.1 hnd).1 hm) fuel hf

theorem chain2_succ (st : Store) : ∀ (l : List Nat) (a b : Nat),
    chain2 st a l b → ∀ n ∈ a :: l, ∃ m, linked st n m := by
  intro l
  induction l with
  | nil =>
    intro a b h n hn
    rcases List.mem_cons.1 hn with rfl | hn
    · exact ⟨b, h⟩
    · simp at hn
  | cons x xs ih =>
    intro a b h n hn
    rcases List.mem_cons.1 hn with rfl | hn
    · exact ⟨x, h.1⟩
    · exact ih x b h.2 n hn

theorem chain2_pred (st : Store) : ∀ (l : List Nat) (a b : Nat),
    chain2 st a l b → ∀ n ∈ l ++ [b], ∃ m, linked st m n := by
  intro l
  induction l with
  | nil =>
    intro a b h n hn
    have hb : n = b := by simpa using hn
    subst hb
    exact ⟨a, h⟩
  | cons x xs ih =>
    intro a b h n hn
    have hn' : n = x ∨ n ∈ xs ++ [b] := by
      rcases List.mem_append.1 hn with h1 | h1
      · rcases List.mem_cons.1 h1 with h2 | h2
        · exact Or.inl h2
        · exact Or.inr (List.mem_append.2 (Or.inl h2))
      · exact Or.inr (List.mem_append.2 (Or.inr h1))
    rcases hn' with rfl | hn'
    · exact ⟨a, h.1⟩
    · exact ih x b h.2 n hn'

/-- The doubly-linked consistency of every reachable node (sentinel included)
follows from the representation invariant. -/
theorem rep_doubly_linked (st : Store) (s : Nat) (l : List Nat) (h : rep st s l) :
    ∀ n ∈ s :: l, (st ((st n).next_)).prev_ = n ∧ (st ((st n).prev_)).next_ = n := by
  obtain ⟨hc, _⟩ := h
  intro n hn
  constructor
  · obtain ⟨m, hm⟩ := chain2_succ st l s s hc n hn
    rw [hm.1, hm.2]
  · have hn2 : n ∈ l ++ [s] := by
      rcases List.mem_cons.1 hn with rfl | hn
      · exact List.mem_append.2 (Or.inr (List.mem_cons_self n []))
      · exact List.mem_append.2 (Or.inl hn)
    obtain ⟨m, hm⟩ := chain2_pred st l s s hc n hn2
    rw [hm.2, hm.1]

theorem headOr_mem (l : List Nat) (s : Nat) : headOr l s ∈ s :: l := by
  cases l with
  | nil => exact List.mem_cons_self _ _
  | cons x xs => exact List.mem_cons_of_mem s (List.mem_cons_self _ _)

theorem lastOr_mem : ∀ (l : List Nat) (s : Nat), lastOr l s ∈ s :: l := by
  intro l
  induction l with
  | nil => intro s; exact List.mem_cons_self _ _
  | cons x xs ih =>
    intro s
    have := ih x
    rcases List.mem_cons.1 this with h | h
    · rw [lastOr, h]
      exact List.mem_cons_of_mem s (List.mem_cons_self _ _)
    · rw [lastOr]
      exact List.mem_cons_of_mem s (List.mem_cons_of_mem x h)

theorem cons_dropLast_concat : ∀ (l : List Nat) (s : Nat),
    (s :: l).dropLast ++ [lastOr l s] = s :: l := by
  intro l
  induction l with
  | nil => intro s; rfl
  | cons x xs ih =>
    intro s
    have h1 : (s :: x :: xs).dropLast = s :: (x :: xs).dropLast := rfl
    rw [h1, lastOr, List.cons_append, ih x]

theorem lastOr_not_mem_dropLast (l : List Nat) (s : Nat)
    (hnd : (s :: l).Nodup) : lastOr l s ∉ (s :: l).dropLast := by
  intro hm
  have h := cons_dropLast_concat l s
  rw [← h] at hnd
  rcases List.nodup_append.1 hnd with ⟨_, _, hdisj⟩
  exact hdisj hm (List.mem_cons_self _ _)

theorem lastOr_append : ∀ (xs ys : List Nat) (a : Nat),
    lastOr (xs ++ ys) a = lastOr ys (lastOr xs a) := by
  intro xs
  induction xs with
  | nil => intro ys a; rfl
  | cons x xs ih => intro ys a; exact ih ys x

/-- `push_front` preserves the representation: the node goes to the front of
the element sequence.  The pushed node and its two current link targets must
lie outside the list's own cycle (a freshly constructed or previously removed
node is self-looped; a node linked in a different list points into that
list). -/
theorem push_front_rep (st : Store) (s : Nat) (l : List Nat) (n : Nat)
    (hrep : rep st s l) (hn : n ∉ s :: l)
    (hp : (st n).prev_ ∉ s :: l) (hq : (st n).next_ ∉ s :: l) :
    rep (push_front st s n) s (n :: l) := by
  obtain ⟨hc, hnd⟩ := hrep
  have hsl : s ∉ l := (List.nodup_cons.1 hnd).1
  have hndl : l.Nodup := (List.nodup_cons.1 hnd).2
  have hns : n ≠ s := fun h => hn (h ▸ List.mem_cons_self _ _)
  have hps : (st n).prev_ ≠ s := fun h => hp (h ▸ List.mem_cons_self _ _)
  have hhead : (st s).next_ = headOr l s := chain2_head_next st l s s hc
  have hh_mem : headOr l s ∈ s :: l := headOr_mem l s
  have hnh : (st s).next_ ≠ n := by rw [hhead]; exact fun h => hn (h ▸ hh_mem)
  have hph : (st s).next_ ≠ (st n).prev_ := by rw [hhead]; exact fun h => hp (h ▸ hh_mem)
  have hqh : (st s).next_ ≠ (st n).next_ := by rw [hhead]; exact fun h => hq (h ▸ hh_mem)
  have e1 : ((push_front st s n) s).next_ = n := by
    simp [push_front, insert_after, unlink, set_next_next, set_next_prev, set_prev_next,
      set_prev_prev]
  have e2 : ((push_front st s n) n).prev_ = s := by
    by_cases hpn : (st n).prev_ = n <;> by_cases hqn : (st n).next_ = n <;>
    by_cases hqh2 : (st n).next_ = (st s).next_ <;>
      simp [push_front, insert_after, unlink, set_next_next, set_next_prev, set_prev_next,
        set_prev_prev, hns, Ne.symm hns, hps, Ne.symm hps, hnh, Ne.symm hnh, hpn, hqn, hqh2]
  have e3 : ((push_front st s n) n).next_ = (st s).next_ := by
    by_cases hpn : (st n).prev_ = n <;> by_cases hqn : (st n).next_ = n <;>
      simp [push_front, insert_after, unlink, set_next_next, set_next_prev, set_prev_next,
        set_prev_prev, hns, Ne.symm hns, hps, Ne.symm hps, hpn, hqn]
  have e4 : ((push_front st s n) ((st s).next_)).prev_ = n := by
    by_cases hpn : (st n).prev_ = n <;> by_cases hqn : (st n).next_ = n <;>
      simp [push_front, insert_after, unlink, set_next_next, set_next_prev, set_prev_next,
        set_prev_prev, hns, Ne.symm hns, hps, Ne.symm hps, hnh, Ne.symm hnh,
        hqh, Ne.symm hqh, hpn, hqn]
  have eframe_next : ∀ x, x ≠ s → x ≠ n → x ≠ (st n).prev_ →
      ((push_front st s n) x).next_ = (st x).next_ := by
    intro x h1 h2 h3
    simp [push_front, insert_after, unlink, set_next_next, set_next_prev, set_prev_next,
      set_prev_prev, h1, h2, h3]
  have eframe_prev : ∀ x, x ≠ n → x ≠ (st n).next_ → x ≠ (st s).next_ →
      ((push_front st s n) x).prev_ = (st x).prev_ := by
    intro x h2 h3 h4
    simp [push_front, insert_after, unlink, set_next_next, set_next_prev, set_prev_next,
      set_prev_prev, hns, Ne.symm hns, hps, Ne.symm hps, h2, h3, h4]
  constructor
  · refine ⟨⟨e1, e2⟩, ?_⟩
    cases l with
    | nil =>
      refine ⟨?_, ?_⟩
      · rw [e3, hhead]; rfl
      · have h5 := e4
        rw [hhead] at h5
        exact h5
    | cons x xs =>
      refine ⟨⟨?_, ?_⟩, ?_⟩
      · rw [e3, hhead]; rfl
      · have h5 := e4
        rw [hhead] at h5
        exact h5
      · apply chain2_congr xs x s hc.2
        · intro y hy
          have hyl : y ∈ x :: xs := hy
          exact eframe_next y (fun h => hsl (h ▸ hyl))
            (fun h => hn (List.mem_cons_of_mem s (h ▸ hyl)))
            (fun h => hp (List.mem_cons_of_mem s (h ▸ hyl)))
        · intro y hy
          have hy2 : y = s ∨ y ∈ xs := by
            rcases List.mem_append.1 hy with h1 | h1
            · exact Or.inr h1
            · exact Or.inl (by simpa using h1)
          have hyns : y ∈ s :: x :: xs := by
            rcases hy2 with rfl | h1
            · exact List.mem_cons_self _ _
            · exact List.mem_cons_of_mem s (List.mem_cons_of_mem x h1)
          have hyx : y ≠ x := by
            rcases hy2 with rfl | h1
            · exact fun h => hsl (h ▸ List.mem_cons_self x xs)
            · exact fun h => (List.nodup_cons.1 hndl).1 (h ▸ h1)
          apply eframe_prev y (fun h => hn (h ▸ hyns)) (fun h => hq (h ▸ hyns))
          rw [hhead]
          exact hyx
  · refine List.nodup_cons.2
      ⟨?_, List.nodup_cons.2 ⟨fun hm => hn (List.mem_cons_of_mem s hm), hndl⟩⟩
    intro hm
    rcases List.mem_cons.1 hm with h | h
    · exact hns h.symm
    · exact hsl h

/-- `insert_before` at a valid iterator position preserves the
representation: the node lands immediately before the position (`pos = s`,
i.e. `end()`, appends at the back — this is `push_back`). -/
theorem insert_before_rep (st : Store) (s : Nat) (l1 l2 : List Nat) (n : Nat)
    (hrep : rep st s (l1 ++ l2)) (hn : n ∉ s :: (l1 ++ l2))
    (hp : (st n).prev_ ∉ s :: (l1 ++ l2)) (hq : (st n).next_ ∉ s :: (l1 ++ l2)) :
    rep (insert_before st (headOr l2 s) n) s (l1 ++ n :: l2) := by
  obtain ⟨hc, hnd⟩ := hrep
  have hsub1 : ∀ y, y ∈ s :: l1 → y ∈ s :: (l1 ++ l2) := by
    intro y hy
    rcases List.mem_cons.1 hy with rfl | hy
    · exact List.mem_cons_self _ _
    · exact List.mem_cons_of_mem _ (List.mem_append.2 (Or.inl hy))
  have hsub2 : ∀ y, y ∈ l2 → y ∈ s :: (l1 ++ l2) := fun y hy =>
    List.mem_cons_of_mem _ (List.mem_append.2 (Or.inr hy))
  have hnd1 : (s :: l1).Nodup := by
    have : List.Sublist (s :: l1) (s :: (l1 ++ l2)) :=
      List.Sublist.cons₂ s (List.sublist_append_left l1 l2)
    exact hnd.sublist this
  have hs_l2 : s ∉ l2 := fun hm => (List.nodup_cons.1 hnd).1 (List.mem_append.2 (Or.inr hm))
  have hndl2 : l2.Nodup := (List.nodup_append.1 (List.nodup_cons.1 hnd).2).2.1
  have hdisj : ∀ y, y ∈ s :: l1 → y ∈ l2 → False := by
    intro y hy1 hy2
    rcases List.mem_cons.1 hy1 with h | h
    · rw [h] at hy2
      exact hs_l2 hy2
    · exact (List.nodup_append.1 (List.nodup_cons.1 hnd).2).2.2 h hy2
  have hpos_mem : headOr l2 s ∈ s :: (l1 ++ l2) := by
    cases l2 with
    | nil => exact List.mem_cons_self _ _
    | cons x xs => exact hsub2 x (List.mem_cons_self _ _)
  have hposn : headOr l2 s ≠ n := fun h => hn (h ▸ hpos_mem)
  have hposp : headOr l2 s ≠ (st n).prev_ := fun h => hp (h ▸ hpos_mem)
  have hposq : headOr l2 s ≠ (st n).next_ := fun h => hq (h ▸ hpos_mem)
  have hlast_mem : lastOr l1 s ∈ s :: (l1 ++ l2) := hsub1 _ (lastOr_mem l1 s)
  have hqp_eq : (st (headOr l2 s)).prev_ = lastOr l1 s := by
    cases l2 with
    | nil =>
      have hc1 : chain2 st s l1 s := by rw [List.append_nil] at hc; exact hc
      exact (chain2_last_edge st l1 s s hc1).2
    | cons x xs =>
      have hc1 : chain2 st s l1 x := ((chain2_middle st l1 s x xs s).1 hc).1
      exact (chain2_last_edge st l1 s x hc1).2
  have hqpn : (st (headOr l2 s)).prev_ ≠ n := by rw [hqp_eq]; exact fun h => hn (h ▸ hlast_mem)
  have hqpp : (st (headOr l2 s)).prev_ ≠ (st n).prev_ := by
    rw [hqp_eq]; exact fun h => hp (h ▸ hlast_mem)
  have hqpq : (st (headOr l2 s)).prev_ ≠ (st n).next_ := by
    rw [hqp_eq]; exact fun h => hq (h ▸ hlast_mem)
  have f1 : ((insert_before st (headOr l2 s) n) n).next_ = headOr l2 s := by
    by_cases hpn : (st n).prev_ = n <;> by_cases hqn : (st n).next_ = n <;>
      simp [insert_before, unlink, set_next_next, set_next_prev, set_prev_next, set_prev_prev,
        hposn, Ne.symm hposn, hposp, Ne.symm hposp, hposq, Ne.symm hposq,
        hqpn, Ne.symm hqpn, hpn, hqn]
  have f2 : ((insert_before st (headOr l2 s) n) (headOr l2 s)).prev_ = n := by
    by_cases hpn : (st n).prev_ = n <;> by_cases hqn : (st n).next_ = n <;>
      simp [insert_before, unlink, set_next_next, set_next_prev, set_prev_next, set_prev_prev,
        hposn, Ne.symm hposn, hposp, Ne.symm hposp, hposq, Ne.symm hposq,
        hqpn, Ne.symm hqpn, hpn, hqn]
  have f3 : ((insert_before st (headOr l2 s) n) n).prev_ = (st (headOr l2 s)).prev_ := by
    by_cases hpn : (st n).prev_ = n <;> by_cases hqn : (st n).next_ = n <;>
      simp [insert_before, unlink, set_next_next, set_next_prev, set_prev_next, set_prev_prev,
        hposn, Ne.symm hposn, hposp, Ne.symm hposp, hposq, Ne.symm hposq,
        hqpn, Ne.symm hqpn, hqpp, Ne.symm hqpp, hqpq, Ne.symm hqpq, hpn, hqn]
  have f4 : ((insert_before st (headOr l2 s) n) ((st (headOr l2 s)).prev_)).next_ = n := by
    by_cases hpn : (st n).prev_ = n <;> by_cases hqn : (st n).next_ = n <;>
    by_cases hqppos : (st (headOr l2 s)).prev_ = headOr l2 s <;>
      simp [insert_before, unlink, set_next_next, set_next_prev, set_prev_next, set_prev_prev,
        hposn, Ne.symm hposn, hposp, Ne.symm hposp, hposq, Ne.symm hposq,
        hqpn, Ne.symm hqpn, hqpp, Ne.symm hqpp, hqpq, Ne.symm hqpq, hpn, hqn, hqppos]
  have fframe_next : ∀ x, x ≠ n → x ≠ (st n).prev_ → x ≠ (st (headOr l2 s)).prev_ →
      ((insert_before st (headOr l2 s) n) x).next_ = (st x).next_ := by
    intro x h1 h2 h3
    by_cases hpn : (st n).prev_ = n <;> by_cases hqn : (st n).next_ = n <;>
      simp [insert_before, unlink, set_next_next, set_next_prev, set_prev_next, set_prev_prev,
        hposn, Ne.symm hposn, hposp, Ne.symm hposp, hposq, Ne.symm hposq,
        hqpn, Ne.symm hqpn, h1, h2, h3, hpn, hqn]
  have fframe_prev : ∀ x, x ≠ n → x ≠ (st n).next_ → x ≠ headOr l2 s →
      ((insert_before st (headOr l2 s) n) x).prev_ = (st x).prev_ := by
    intro x h1 h2 h3
    by_cases hpn : (st n).prev_ = n <;> by_cases hqn : (st n).next_ = n <;>
      simp [insert_before, unlink, set_next_next, set_next_prev, set_prev_next, set_prev_prev,
        hposn, Ne.symm hposn, hposp, Ne.symm hposp, hposq, Ne.symm hposq,
        hqpn, Ne.symm hqpn, h1, h2, h3, hpn, hqn]
  have hretarget : chain2 (insert_before st (headOr l2 s) n) s l1 n := by
    have hc1 : chain2 st s l1 (headOr l2 s) := by
      cases l2 with
      | nil => rw [List.append_nil] at hc; exact hc
      | cons x xs => exact ((chain2_middle st l1 s x xs s).1 hc).1
    apply chain2_retarget l1 s (headOr l2 s) n hc1
    · intro y hy
      have hy1 : y ∈ s :: l1 := by
        rw [← cons_dropLast_concat l1 s]
        exact List.mem_append.2 (Or.inl hy)
      have hyC := hsub1 y hy1
      apply fframe_next y (fun h => hn (h ▸ hyC)) (fun h => hp (h ▸ hyC))
      rw [hqp_eq]
      exact fun h => lastOr_not_mem_dropLast l1 s hnd1 (h ▸ hy)
    · rw [hqp_eq] at f4; exact f4
    · intro y hy
      have hyC := hsub1 y (List.mem_cons_of_mem s hy)
      apply fframe_prev y (fun h => hn (h ▸ hyC)) (fun h => hq (h ▸ hyC))
      intro h
      cases l2 with
      | nil =>
        have h2 : y = s := h
        rw [h2] at hy
        exact (List.nodup_cons.1 hnd).1 (List.mem_append.2 (Or.inl hy))
      | cons x xs =>
        have h2 : y = x := h
        rw [h2] at hy
        exact hdisj x (List.mem_cons_of_mem s hy) (List.mem_cons_self x xs)
    · rw [hqp_eq] at f3; exact f3
  constructor
  · cases l2 with
    | nil =>
      have hgoal : chain2 (insert_before st (headOr ([] : List Nat) s) n) s (l1 ++ [n]) s :=
        (chain2_concat _ l1 s n s).2 ⟨hretarget, f1, f2⟩
      exact hgoal
    | cons x xs =>
      apply (chain2_middle _ l1 s n (x :: xs) s).2
      refine ⟨hretarget, ⟨f1, f2⟩, ?_⟩
      have hc2 : chain2 st x xs s := ((chain2_middle st l1 s x xs s).1 hc).2
      apply chain2_congr xs x s hc2
      · intro y hy
        have hyC : y ∈ s :: (l1 ++ x :: xs) := hsub2 y hy
        apply fframe_next y (fun h => hn (h ▸ hyC)) (fun h => hp (h ▸ hyC))
        rw [hqp_eq]
        intro h
        rw [h] at hy
        exact hdisj (lastOr l1 s) (lastOr_mem l1 s) hy
      · intro y hy
        have hy2 : y = s ∨ y ∈ xs := by
          rcases List.mem_append.1 hy with h1 | h1
          · exact Or.inr h1
          · exact Or.inl (by simpa using h1)
        have hyC : y ∈ s :: (l1 ++ x :: xs) := by
          rcases hy2 with rfl | h1
          · exact List.mem_cons_self _ _
          · exact hsub2 y (List.mem_cons_of_mem x h1)
        apply fframe_prev y (fun h => hn (h ▸ hyC)) (fun h => hq (h ▸ hyC))
        show y ≠ x
        rcases hy2 with h1 | h1
        · intro h
          rw [h1] at h
          exact hs_l2 (h.symm ▸ List.mem_cons_self x xs)
        · intro h
          rw [h] at h1
          exact (List.nodup_cons.1 hndl2).1 h1
  · have heq1 : s :: (l1 ++ n :: l2) = (s :: l1) ++ n :: l2 := rfl
    rw [heq1, List.nodup_middle]
    exact List.nodup_cons.2 ⟨hn, hnd⟩

/-- `list_node::remove` of a node in the list preserves the representation:
the element sequence loses exactly that node. -/
theorem remove_rep (st : Store) (s : Nat) (l1 : List Nat) (x : Nat) (l2 : List Nat)
    (hrep : rep st s (l1 ++ x :: l2)) :
    rep (remove st x) s (l1 ++ l2) := by
  obtain ⟨hc, hnd⟩ := hrep
  have hsplit := (chain2_middle st l1 s x l2 s).1 hc
  have hc1 : chain2 st s l1 x := hsplit.1
  have hc2 : chain2 st x l2 s := hsplit.2
  have hqpre : (st x).prev_ = lastOr l1 s := (chain2_last_edge st l1 s x hc1).2
  have hqnext : (st x).next_ = headOr l2 s := chain2_head_next st l2 x s hc2
  have hnd1 : (s :: l1).Nodup := by
    have : List.Sublist (s :: l1) (s :: (l1 ++ x :: l2)) :=
      List.Sublist.cons₂ s (List.sublist_append_left l1 (x :: l2))
    exact hnd.sublist this
  have hx_mem : x ∈ s :: (l1 ++ x :: l2) :=
    List.mem_cons_of_mem s (List.mem_append.2 (Or.inr (List.mem_cons_self x l2)))
  have hx_l1 : x ∉ l1 := by
    intro hm
    have := List.nodup_append.1 (List.nodup_cons.1 hnd).2
    exact this.2.2 hm (List.mem_cons_self x l2)
  have hx_l2 : x ∉ l2 := by
    have := (List.nodup_append.1 (List.nodup_cons.1 hnd).2).2.1
    exact (List.nodup_cons.1 this).1
  have hx_s : x ≠ s := by
    intro h
    apply (List.nodup_cons.1 hnd).1
    rw [← h]
    exact List.mem_append.2 (Or.inr (List.mem_cons_self x l2))
  have hs_l2x : s ∉ x :: l2 := fun hm =>
    (List.nodup_cons.1 hnd).1 (List.mem_append.2 (Or.inr hm))
  have hdisj : ∀ y, y ∈ s :: l1 → y ∈ x :: l2 → False := by
    intro y hy1 hy2
    rcases List.mem_cons.1 hy1 with h | h
    · rw [h] at hy2
      exact hs_l2x hy2
    · exact (List.nodup_append.1 (List.nodup_cons.1 hnd).2).2.2 h hy2
  have hndl2x : (x :: l2).Nodup := (List.nodup_append.1 (List.nodup_cons.1 hnd).2).2.1
  have hxqpre : (st x).prev_ ≠ x := by
    rw [hqpre]
    intro he
    exact hdisj x (he ▸ lastOr_mem l1 s) (List.mem_cons_self x l2)
  have hxqnext : (st x).next_ ≠ x := by
    rw [hqnext]
    have hm := headOr_mem l2 s
    rcases List.mem_cons.1 hm with h | h
    · rw [h]; exact Ne.symm hx_s
    · intro he
      rw [he] at h
      exact hx_l2 h
  have g3 : ((remove st x) ((st x).prev_)).next_ = (st x).next_ := by
    by_cases hpq : (st x).prev_ = (st x).next_ <;>
      simp [remove, unlink, set_next_next, set_next_prev, set_prev_next, set_prev_prev,
        hxqpre, Ne.symm hxqpre, hxqnext, Ne.symm hxqnext, hpq]
  have g4 : ((remove st x) ((st x).next_)).prev_ = (st x).prev_ := by
    by_cases hpq : (st x).prev_ = (st x).next_ <;>
      simp [remove, unlink, set_next_next, set_next_prev, set_prev_next, set_prev_prev,
        hxqpre, Ne.symm hxqpre, hxqnext, Ne.symm hxqnext, hpq]
  have gframe_next : ∀ y, y ≠ x → y ≠ (st x).prev_ → ((remove st x) y).next_ = (st y).next_ := by
    intro y h1 h2
    simp [remove, unlink, set_next_next, set_next_prev, set_prev_next, set_prev_prev, h1, h2]
  have gframe_prev : ∀ y, y ≠ x → y ≠ (st x).next_ → ((remove st x) y).prev_ = (st y).prev_ := by
    intro y h1 h2
    simp [remove, unlink, set_next_next, set_next_prev, set_prev_next, set_prev_prev,
      hxqpre, Ne.symm hxqpre, h1, h2]
  constructor
  · have hretarget : chain2 (remove st x) s l1 (headOr l2 s) := by
      apply chain2_retarget l1 s x (headOr l2 s) hc1
      · intro y hy
        have hy1 : y ∈ s :: l1 := by
          rw [← cons_dropLast_concat l1 s]
          exact List.mem_append.2 (Or.inl hy)
        apply gframe_next y
        · intro h
          rw [h] at hy1
          exact hdisj x hy1 (List.mem_cons_self x l2)
        · rw [hqpre]
          exact fun h => lastOr_not_mem_dropLast l1 s hnd1 (h ▸ hy)
      · rw [hqpre] at g3
        rw [g3, hqnext]
      · intro y hy
        apply gframe_prev y
        · exact fun h => hx_l1 (h ▸ hy)
        · rw [hqnext]
          intro h
          cases l2 with
          | nil =>
            have h2 : y = s := h
            rw [h2] at hy
            exact (List.nodup_cons.1 hnd).1 (List.mem_append.2 (Or.inl hy))
          | cons z zs =>
            have h2 : y = z := h
            rw [h2] at hy
            exact hdisj z (List.mem_cons_of_mem s hy)
              (List.mem_cons_of_mem x (List.mem_cons_self z zs))
      · rw [hqpre] at g4
        rw [hqnext] at g4
        exact g4
    cases l2 with
    | nil =>
      rw [List.append_nil]
      exact hretarget
    | cons z zs =>
      apply (chain2_middle _ l1 s z zs s).2
      refine ⟨hretarget, ?_⟩
      have hc22 : chain2 st z zs s := hc2.2
      apply chain2_congr zs z s hc22
      · intro y hy
        apply gframe_next y
        · intro h
          rw [h] at hy
          exact (List.nodup_cons.1 hndl2x).1 hy
        · rw [hqpre]
          intro h
          rw [h] at hy
          exact hdisj (lastOr l1 s) (lastOr_mem l1 s) (List.mem_cons_of_mem x hy)
      · intro y hy
        have hy2 : y = s ∨ y ∈ zs := by
          rcases List.mem_append.1 hy with h1 | h1
          · exact Or.inr h1
          · exact Or.inl (by simpa using h1)
        apply gframe_prev y
        · intro h
          rcases hy2 with h1 | h1
          · rw [h1] at h
            exact hs_l2x (h.symm ▸ List.mem_cons_self x (z :: zs))
          · rw [h] at h1
            exact (List.nodup_cons.1 hndl2x).1 (List.mem_cons_of_mem z h1)
        · rw [hqnext]
          show y ≠ z
          intro h
          rcases hy2 with h1 | h1
          · rw [h1] at h
            exact hs_l2x (h.symm ▸ List.mem_cons_of_mem x (List.mem_cons_self z zs))
          · rw [h] at h1
            have := (List.nodup_cons.1 hndl2x).2
            exact (List.nodup_cons.1 this).1 h1
  · have h2 : List.Sublist (s :: (l1 ++ l2)) (s :: (l1 ++ x :: l2)) :=
      List.Sublist.cons₂ s (List.Sublist.append_left (List.sublist_cons_self x l2) l1)
    exact hnd.sublist h2

/-- The range overload of `insert_before` splices `[f, headOr l2 sA)` — the
nodes `f :: seg'` — out of list A (sentinel `sA`) and into list B (sentinel
`sB`) immediately before the position `headOr m2 sB`: A's cycle closes over
the gap, B's cycle gains the segment in order, and no `data_` field is
touched. -/
theorem splice_rep (st : Store) (sA sB : Nat) (l1 : List Nat) (f : Nat)
    (seg' l2 m1 m2 : List Nat)
    (hA : rep st sA (l1 ++ f :: (seg' ++ l2))) (hB : rep st sB (m1 ++ m2))
    (hdisj : ∀ y, y ∈ sA :: (l1 ++ f :: (seg' ++ l2)) → y ∉ sB :: (m1 ++ m2)) :
    rep (insert_before_range st (headOr m2 sB) f (headOr l2 sA)) sA (l1 ++ l2) ∧
    rep (insert_before_range st (headOr m2 sB) f (headOr l2 sA)) sB (m1 ++ f :: (seg' ++ m2)) ∧
    ∀ y, ((insert_before_range st (headOr m2 sB) f (headOr l2 sA)) y).data_ = (st y).data_ := by
  obtain ⟨hcA, hndA⟩ := hA
  obtain ⟨hcB, hndB⟩ := hB
  have hcA1 : chain2 st sA l1 f := ((chain2_middle st l1 sA f (seg' ++ l2) sA).1 hcA).1
  have hcA2 : chain2 st f (seg' ++ l2) sA := ((chain2_middle st l1 sA f (seg' ++ l2) sA).1 hcA).2
  have hsA_not : sA ∉ l1 ++ f :: (seg' ++ l2) := (List.nodup_cons.1 hndA).1
  have hnd_l : (l1 ++ f :: (seg' ++ l2)).Nodup := (List.nodup_cons.1 hndA).2
  have hnd_rest : (f :: (seg' ++ l2)).Nodup := (List.nodup_append.1 hnd_l).2.1
  have hf_not : f ∉ seg' ++ l2 := (List.nodup_cons.1 hnd_rest).1
  have hnd_segl2 : (seg' ++ l2).Nodup := (List.nodup_cons.1 hnd_rest).2
  have hndA_fseg : (f :: seg').Nodup :=
    List.nodup_cons.2 ⟨fun hm => hf_not (List.mem_append.2 (Or.inl hm)),
      (List.nodup_append.1 hnd_segl2).1⟩
  have hndA_s_l1 : (sA :: l1).Nodup := by
    have : List.Sublist (sA :: l1) (sA :: (l1 ++ f :: (seg' ++ l2))) :=
      List.Sublist.cons₂ sA (List.sublist_append_left l1 _)
    exact hndA.sublist this
  have hndB_s_m1 : (sB :: m1).Nodup := by
    have : List.Sublist (sB :: m1) (sB :: (m1 ++ m2)) :=
      List.Sublist.cons₂ sB (List.sublist_append_left m1 m2)
    exact hndB.sublist this
  -- membership of the canonical atoms in their cycles
  have hAm_l1 : ∀ y, y ∈ sA :: l1 → y ∈ sA :: (l1 ++ f :: (seg' ++ l2)) := by
    intro y hy
    rcases List.mem_cons.1 hy with rfl | hy
    · exact List.mem_cons_self _ _
    · exact List.mem_cons_of_mem _ (List.mem_append.2 (Or.inl hy))
  have hAm_seg : ∀ y, y ∈ f :: seg' → y ∈ sA :: (l1 ++ f :: (seg' ++ l2)) := by
    intro y hy
    apply List.mem_cons_of_mem
    apply List.mem_append.2
    rcases List.mem_cons.1 hy with rfl | hy
    · exact Or.inr (List.mem_cons_self _ _)
    · exact Or.inr (List.mem_cons_of_mem f (List.mem_append.2 (Or.inl hy)))
  have hAm_l2 : ∀ y, y ∈ sA :: l2 → y ∈ sA :: (l1 ++ f :: (seg' ++ l2)) := by
    intro y hy
    rcases List.mem_cons.1 hy with rfl | hy
    · exact List.mem_cons_self _ _
    · exact List.mem_cons_of_mem _
        (List.mem_append.2 (Or.inr (List.mem_cons_of_mem f (List.mem_append.2 (Or.inr hy)))))
  have hBm_m1 : ∀ y, y ∈ sB :: m1 → y ∈ sB :: (m1 ++ m2) := by
    intro y hy
    rcases List.mem_cons.1 hy with rfl | hy
    · exact List.mem_cons_self _ _
    · exact List.mem_cons_of_mem _ (List.mem_append.2 (Or.inl hy))
  have hBm_m2 : ∀ y, y ∈ sB :: m2 → y ∈ sB :: (m1 ++ m2) := by
    intro y hy
    rcases List.mem_cons.1 hy with rfl | hy
    · exact List.mem_cons_self _ _
    · exact List.mem_cons_of_mem _ (List.mem_append.2 (Or.inr hy))
  -- in-A disjointness of the three regions
  have hl1_seg : ∀ y, y ∈ sA :: l1 → y ∈ f :: seg' → False := by
    intro y h1 h2
    have h2' : y ∈ f :: (seg' ++ l2) := by
      rcases List.mem_cons.1 h2 with rfl | h
      · exact List.mem_cons_self _ _
      · exact List.mem_cons_of_mem f (List.mem_append.2 (Or.inl h))
    rcases List.mem_cons.1 h1 with rfl | h
    · exact hsA_not (List.mem_append.2 (Or.inr h2'))
    · exact (List.nodup_append.1 hnd_l).2.2 h h2'
  have hl1_l2 : ∀ y, y ∈ sA :: l1 → y ∈ l2 → False := by
    intro y h1 h2
    have h2' : y ∈ f :: (seg' ++ l2) :=
      List.mem_cons_of_mem f (List.mem_append.2 (Or.inr h2))
    rcases List.mem_cons.1 h1 with rfl | h
    · exact hsA_not (List.mem_append.2 (Or.inr h2'))
    · exact (List.nodup_append.1 hnd_l).2.2 h h2'
  have hseg_l2 : ∀ y, y ∈ f :: seg' → y ∈ l2 → False := by
    intro y h1 h2
    rcases List.mem_cons.1 h1 with rfl | h
    · exact hf_not (List.mem_append.2 (Or.inr h2))
    · exact (List.nodup_append.1 hnd_segl2).2.2 h h2
  have hm1_m2 : ∀ y, y ∈ sB :: m1 → y ∈ m2 → False := by
    intro y h1 h2
    rcases List.mem_cons.1 h1 with rfl | h
    · exact (List.nodup_cons.1 hndB).1 (List.mem_append.2 (Or.inr h2))
    · exact (List.nodup_append.1 (List.nodup_cons.1 hndB).2).2.2 h h2
  -- derived link-field equalities
  have hqA : (st f).prev_ = lastOr l1 sA := (chain2_last_edge st l1 sA f hcA1).2
  have hqB : (st (headOr m2 sB)).prev_ = lastOr m1 sB := by
    cases m2 with
    | nil =>
      have hcB1 : chain2 st sB m1 sB := by rw [List.append_nil] at hcB; exact hcB
      exact (chain2_last_edge st m1 sB sB hcB1).2
    | cons z m2' =>
      exact (chain2_last_edge st m1 sB z ((chain2_middle st m1 sB z m2' sB).1 hcB).1).2
  have hcSeg : chain2 st f seg' (headOr l2 sA) := by
    cases l2 with
    | nil => rw [List.append_nil] at hcA2; exact hcA2
    | cons y l2' => exact ((chain2_middle st seg' f y l2' sA).1 hcA2).1
  have hlastSegEdge : linked st (lastOr seg' f) (headOr l2 sA) :=
    chain2_last_edge st seg' f (headOr l2 sA) hcSeg
  have hlastPrev : (st (headOr l2 sA)).prev_ = lastOr seg' f := hlastSegEdge.2
  have hlsnext : (st (lastOr seg' f)).next_ = headOr l2 sA := hlastSegEdge.1
  -- canonical-atom disequalities
  have d1 : lastOr l1 sA ≠ f :=
    fun h => hl1_seg _ (h ▸ lastOr_mem l1 sA) (List.mem_cons_self _ _)
  have d2 : lastOr l1 sA ≠ lastOr seg' f := by
    intro h
    exact hl1_seg (lastOr l1 sA) (lastOr_mem l1 sA) (h ▸ lastOr_mem seg' f)
  have d3 : lastOr seg' f ≠ headOr l2 sA := by
    intro h
    rcases List.mem_cons.1 (headOr_mem l2 sA) with h2 | h2
    · exact hl1_seg (lastOr seg' f) (by rw [h, h2]; exact List.mem_cons_self _ _)
        (lastOr_mem seg' f)
    · exact hseg_l2 _ (lastOr_mem seg' f) (h ▸ h2)
  have d4 : f ≠ headOr l2 sA := by
    intro h
    rcases List.mem_cons.1 (headOr_mem l2 sA) with h2 | h2
    · exact hl1_seg f (by rw [h, h2]; exact List.mem_cons_self _ _) (List.mem_cons_self _ _)
    · exact hseg_l2 f (List.mem_cons_self _ _) (h ▸ h2)
  have d5 : lastOr l1 sA ∉ sB :: (m1 ++ m2) := hdisj _ (hAm_l1 _ (lastOr_mem l1 sA))
  have d6 : lastOr seg' f ∉ sB :: (m1 ++ m2) := hdisj _ (hAm_seg _ (lastOr_mem seg' f))
  have d7 : f ∉ sB :: (m1 ++ m2) := hdisj _ (hAm_seg _ (List.mem_cons_self _ _))
  have d8 : headOr l2 sA ∉ sB :: (m1 ++ m2) := hdisj _ (hAm_l2 _ (headOr_mem l2 sA))
  have dqB_mem : lastOr m1 sB ∈ sB :: (m1 ++ m2) := hBm_m1 _ (lastOr_mem m1 sB)
  have dpos_mem : headOr m2 sB ∈ sB :: (m1 ++ m2) := hBm_m2 _ (headOr_mem m2 sB)
  have d9 : lastOr m1 sB ≠ lastOr l1 sA := fun h => d5 (h ▸ dqB_mem)
  have d10 : lastOr m1 sB ≠ lastOr seg' f := fun h => d6 (h ▸ dqB_mem)
  have d11 : lastOr m1 sB ≠ f := fun h => d7 (h ▸ dqB_mem)
  have d12 : lastOr m1 sB ≠ headOr l2 sA := fun h => d8 (h ▸ dqB_mem)
  have d13 : headOr m2 sB ≠ lastOr l1 sA := fun h => d5 (h ▸ dpos_mem)
  have d14 : headOr m2 sB ≠ lastOr seg' f := fun h => d6 (h ▸ dpos_mem)
  have d15 : headOr m2 sB ≠ f := fun h => d7 (h ▸ dpos_mem)
  have d16 : headOr m2 sB ≠ headOr l2 sA := fun h => d8 (h ▸ dpos_mem)
  -- pointwise description of the spliced store
  have s1 : ((insert_before_range st (headOr m2 sB) f (headOr l2 sA)) (lastOr l1 sA)).next_ =
      headOr l2 sA := by
    by_cases h1 : lastOr l1 sA = headOr l2 sA <;> by_cases h2 : lastOr seg' f = f <;>
    by_cases h3 : lastOr m1 sB = headOr m2 sB <;>
      (try simp only [h1] at hqA) <;> (try simp only [h2] at hlastPrev hlsnext) <;>
      (try simp only [h3] at hqB) <;>
      simp [insert_before_range, set_next_next, set_next_prev, set_prev_next, set_prev_prev,
        hqA, hqB, hlastPrev, hlsnext,
        d1, Ne.symm d1, d2, Ne.symm d2, d3, Ne.symm d3, d4, Ne.symm d4,
        d9, Ne.symm d9, d10, Ne.symm d10, d11, Ne.symm d11, d12, Ne.symm d12,
        d13, Ne.symm d13, d14, Ne.symm d14, d15, Ne.symm d15, d16, Ne.symm d16,
        h1, h2, h3]
  have s2 : ((insert_before_range st (headOr m2 sB) f (headOr l2 sA)) (headOr l2 sA)).prev_ =
      lastOr l1 sA := by
    by_cases h1 : lastOr l1 sA = headOr l2 sA <;> by_cases h2 : lastOr seg' f = f <;>
    by_cases h3 : lastOr m1 sB = headOr m2 sB <;>
      (try simp only [h1] at hqA) <;> (try simp only [h2] at hlastPrev hlsnext) <;>
      (try simp only [h3] at hqB) <;>
      simp [insert_before_range, set_next_next, set_next_prev, set_prev_next, set_prev_prev,
        hqA, hqB, hlastPrev, hlsnext,
        d1, Ne.symm d1, d2, Ne.symm d2, d3, Ne.symm d3, d4, Ne.symm d4,
        d9, Ne.symm d9, d10, Ne.symm d10, d11, Ne.symm d11, d12, Ne.symm d12,
        d13, Ne.symm d13, d14, Ne.symm d14, d15, Ne.symm d15, d16, Ne.symm d16,
        h1, h2, h3]
  have s3 : ((insert_before_range st (headOr m2 sB) f (headOr l2 sA)) (lastOr m1 sB)).next_ =
      f := by
    by_cases h1 : lastOr l1 sA = headOr l2 sA <;> by_cases h2 : lastOr seg' f = f <;>
    by_cases h3 : lastOr m1 sB = headOr m2 sB <;>
      (try simp only [h1] at hqA) <;> (try simp only [h2] at hlastPrev hlsnext) <;>
      (try simp only [h3] at hqB) <;>
      simp [insert_before_range, set_next_next, set_next_prev, set_prev_next, set_prev_prev,
        hqA, hqB, hlastPrev, hlsnext,
        d1, Ne.symm d1, d2, Ne.symm d2, d3, Ne.symm d3, d4, Ne.symm d4,
        d9, Ne.symm d9, d10, Ne.symm d10, d11, Ne.symm d11, d12, Ne.symm d12,
        d13, Ne.symm d13, d14, Ne.symm d14, d15, Ne.symm d15, d16, Ne.symm d16,
        h1, h2, h3]
  have s4 : ((insert_before_range st (headOr m2 sB) f (headOr l2 sA)) f).prev_ =
      lastOr m1 sB := by
    by_cases h1 : lastOr l1 sA = headOr l2 sA <;> by_cases h2 : lastOr seg' f = f <;>
    by_cases h3 : lastOr m1 sB = headOr m2 sB <;>
      (try simp only [h1] at hqA) <;> (try simp only [h2] at hlastPrev hlsnext) <;>
      (try simp only [h3] at hqB) <;>
      simp [insert_before_range, set_next_next, set_next_prev, set_prev_next, set_prev_prev,
        hqA, hqB, hlastPrev, hlsnext,
        d1, Ne.symm d1, d2, Ne.symm d2, d3, Ne.symm d3, d4, Ne.symm d4,
        d9, Ne.symm d9, d10, Ne.symm d10, d11, Ne.symm d11, d12, Ne.symm d12,
        d13, Ne.symm d13, d14, Ne.symm d14, d15, Ne.symm d15, d16, Ne.symm d16,
        h1, h2, h3]
  have s5 : ((insert_before_range st (headOr m2 sB) f (headOr l2 sA)) (lastOr seg' f)).next_ =
      headOr m2 sB := by
    by_cases h1 : lastOr l1 sA = headOr l2 sA <;> by_cases h2 : lastOr seg' f = f <;>
    by_cases h3 : lastOr m1 sB = headOr m2 sB <;>
      (try simp only [h1] at hqA) <;> (try simp only [h2] at hlastPrev hlsnext) <;>
      (try simp only [h3] at hqB) <;>
      simp [insert_before_range, set_next_next, set_next_prev, set_prev_next, set_prev_prev,
        hqA, hqB, hlastPrev, hlsnext,
        d1, Ne.symm d1, d2, Ne.symm d2, d3, Ne.symm d3, d4, Ne.symm d4,
        d9, Ne.symm d9, d10, Ne.symm d10, d11, Ne.symm d11, d12, Ne.symm d12,
        d13, Ne.symm d13, d14, Ne.symm d14, d15, Ne.symm d15, d16, Ne.symm d16,
        h1, h2, h3]
  have s6 : ((insert_before_range st (headOr m2 sB) f (headOr l2 sA)) (headOr m2 sB)).prev_ =
      lastOr seg' f := by
    by_cases h1 : lastOr l1 sA = headOr l2 sA <;> by_cases h2 : lastOr seg' f = f <;>
    by_cases h3 : lastOr m1 sB = headOr m2 sB <;>
      (try simp only [h1] at hqA) <;> (try simp only [h2] at hlastPrev hlsnext) <;>
      (try simp only [h3] at hqB) <;>
      simp [insert_before_range, set_next_next, set_next_prev, set_prev_next, set_prev_prev,
        hqA, hqB, hlastPrev, hlsnext,
        d1, Ne.symm d1, d2, Ne.symm d2, d3, Ne.symm d3, d4, Ne.symm d4,
        d9, Ne.symm d9, d10, Ne.symm d10, d11, Ne.symm d11, d12, Ne.symm d12,
        d13, Ne.symm d13, d14, Ne.symm d14, d15, Ne.symm d15, d16, Ne.symm d16,
        h1, h2, h3]
  have frame_next : ∀ y, y ≠ lastOr l1 sA → y ≠ lastOr m1 sB → y ≠ lastOr seg' f →
      ((insert_before_range st (headOr m2 sB) f (headOr l2 sA)) y).next_ = (st y).next_ := by
    intro y hy1 hy2 hy3
    by_cases h1 : lastOr l1 sA = headOr l2 sA <;> by_cases h2 : lastOr seg' f = f <;>
    by_cases h3 : lastOr m1 sB = headOr m2 sB <;>
      (try simp only [h1] at hqA hy1) <;> (try simp only [h2] at hlastPrev hlsnext hy3) <;>
      (try simp only [h3] at hqB hy2) <;>
      simp [insert_before_range, set_next_next, set_next_prev, set_prev_next, set_prev_prev,
        hqA, hqB, hlastPrev, hlsnext, hy1, hy2, hy3,
        d1, Ne.symm d1, d2, Ne.symm d2, d3, Ne.symm d3, d4, Ne.symm d4,
        d9, Ne.symm d9, d10, Ne.symm d10, d11, Ne.symm d11, d12, Ne.symm d12,
        d13, Ne.symm d13, d14, Ne.symm d14, d15, Ne.symm d15, d16, Ne.symm d16,
        h1, h2, h3]
  have frame_prev : ∀ y, y ≠ headOr l2 sA → y ≠ f → y ≠ headOr m2 sB →
      ((insert_before_range st (headOr m2 sB) f (headOr l2 sA)) y).prev_ = (st y).prev_ := by
    intro y hy1 hy2 hy3
    by_cases h1 : lastOr l1 sA = headOr l2 sA <;> by_cases h2 : lastOr seg' f = f <;>
    by_cases h3 : lastOr m1 sB = headOr m2 sB <;>
      (try simp only [h1] at hqA) <;> (try simp only [h2] at hlastPrev hlsnext) <;>
      (try simp only [h3] at hqB) <;>
      simp [insert_before_range, set_next_next, set_next_prev, set_prev_next, set_prev_prev,
        hqA, hqB, hlastPrev, hlsnext, hy1, hy2, hy3,
        d1, Ne.symm d1, d2, Ne.symm d2, d3, Ne.symm d3, d4, Ne.symm d4,
        d9, Ne.symm d9, d10, Ne.symm d10, d11, Ne.symm d11, d12, Ne.symm d12,
        d13, Ne.symm d13, d14, Ne.symm d14, d15, Ne.symm d15, d16, Ne.symm d16,
        h1, h2, h3]
  have data_pres : ∀ y,
      ((insert_before_range st (headOr m2 sB) f (headOr l2 sA)) y).data_ = (st y).data_ := by
    intro y
    simp [insert_before_range, set_next_data, set_prev_data]
  refine ⟨⟨?_, ?_⟩, ⟨?_, ?_⟩, data_pres⟩
  · -- A's cycle after the splice
    have hretA : chain2 (insert_before_range st (headOr m2 sB) f (headOr l2 sA))
        sA l1 (headOr l2 sA) := by
      apply chain2_retarget l1 sA f (headOr l2 sA) hcA1
      · intro y hy
        have hy1 : y ∈ sA :: l1 := by
          rw [← cons_dropLast_concat l1 sA]
          exact List.mem_append.2 (Or.inl hy)
        apply frame_next y
        · exact fun h => lastOr_not_mem_dropLast l1 sA hndA_s_l1 (h ▸ hy)
        · exact fun h => (hdisj y (hAm_l1 y hy1)) (h ▸ dqB_mem)
        · exact fun h => hl1_seg y hy1 (h ▸ lastOr_mem seg' f)
      · exact s1
      · intro y hy
        have hy1 : y ∈ sA :: l1 := List.mem_cons_of_mem sA hy
        apply frame_prev y
        · intro h
          rcases List.mem_cons.1 (headOr_mem l2 sA) with h2 | h2
          · rw [h2] at h
            exact (List.nodup_cons.1 hndA_s_l1).1 (h ▸ hy)
          · exact hl1_l2 y hy1 (h ▸ h2)
        · exact fun h => hl1_seg y hy1 (h ▸ List.mem_cons_self f seg')
        · exact fun h => (hdisj y (hAm_l1 y hy1)) (h ▸ dpos_mem)
      · exact s2
    cases l2 with
    | nil =>
      rw [List.append_nil]
      exact hretA
    | cons y l2' =>
      apply (chain2_middle _ l1 sA y l2' sA).2
      refine ⟨hretA, ?_⟩
      have hcArest : chain2 st y l2' sA := by
        have := (chain2_middle st seg' f y l2' sA).1 hcA2
        exact this.2
      apply chain2_congr l2' y sA hcArest
      · intro z hz
        have hz2 : z ∈ y :: l2' := hz
        apply frame_next z
        · exact fun h => hl1_l2 (lastOr l1 sA) (lastOr_mem l1 sA) (h ▸ hz2)
        · exact fun h => (hdisj z (hAm_l2 z (List.mem_cons_of_mem sA hz2))) (h ▸ dqB_mem)
        · exact fun h => hseg_l2 (lastOr seg' f) (lastOr_mem seg' f) (h ▸ hz2)
      · intro z hz
        have hz2 : z = sA ∨ z ∈ l2' := by
          rcases List.mem_append.1 hz with h | h
          · exact Or.inr h
          · exact Or.inl (by simpa using h)
        have hzA : z ∈ sA :: y :: l2' := by
          rcases hz2 with rfl | h
          · exact List.mem_cons_self _ _
          · exact List.mem_cons_of_mem sA (List.mem_cons_of_mem y h)
        apply frame_prev z
        · show z ≠ headOr (y :: l2') sA
          intro h
          have h2 : z = y := h
          rcases hz2 with h3 | h3
          · rw [h3] at h2
            exact hl1_l2 sA (List.mem_cons_self _ _) (h2 ▸ List.mem_cons_self y l2')
          · rw [h2] at h3
            have hndl2 : (y :: l2').Nodup := by
              have h4 := (List.nodup_append.1 hnd_segl2).2.1
              exact h4
            exact (List.nodup_cons.1 hndl2).1 h3
        · intro h
          rw [h] at hzA
          rcases List.mem_cons.1 hzA with h2 | h2
          · exact hl1_seg f (by rw [h2]; exact List.mem_cons_self sA l1)
              (List.mem_cons_self f seg')
          · exact hseg_l2 f (List.mem_cons_self f seg') h2
        · exact fun h => (hdisj z (hAm_l2 z hzA)) (h ▸ dpos_mem)
  · have : List.Sublist (sA :: (l1 ++ l2)) (sA :: (l1 ++ f :: (seg' ++ l2))) := by
      apply List.Sublist.cons₂ sA
      apply List.Sublist.append_left
      have h1 : List.Sublist l2 (seg' ++ l2) := List.sublist_append_right seg' l2
      exact h1.trans (List.sublist_cons_self f (seg' ++ l2))
    exact hndA.sublist this
  · -- B's cycle after the splice
    have hretB : chain2 (insert_before_range st (headOr m2 sB) f (headOr l2 sA))
        sB m1 f := by
      have hcB1 : chain2 st sB m1 (headOr m2 sB) := by
        cases m2 with
        | nil => rw [List.append_nil] at hcB; exact hcB
        | cons z m2' => exact ((chain2_middle st m1 sB z m2' sB).1 hcB).1
      apply chain2_retarget m1 sB (headOr m2 sB) f hcB1
      · intro y hy
        have hy1 : y ∈ sB :: m1 := by
          rw [← cons_dropLast_concat m1 sB]
          exact List.mem_append.2 (Or.inl hy)
        apply frame_next y
        · exact fun h => (hdisj (lastOr l1 sA) (hAm_l1 _ (lastOr_mem l1 sA))) (h ▸ hBm_m1 y hy1)
        · exact fun h => lastOr_not_mem_dropLast m1 sB hndB_s_m1 (h ▸ hy)
        · exact fun h => (hdisj (lastOr seg' f) (hAm_seg _ (lastOr_mem seg' f))) (h ▸ hBm_m1 y hy1)
      · exact s3
      · intro y hy
        have hy1 : y ∈ sB :: m1 := List.mem_cons_of_mem sB hy
        apply frame_prev y
        · exact fun h => (hdisj (headOr l2 sA) (hAm_l2 _ (headOr_mem l2 sA))) (h ▸ hBm_m1 y hy1)
        · exact fun h => (hdisj f (hAm_seg _ (List.mem_cons_self f seg'))) (h ▸ hBm_m1 y hy1)
        · intro h
          rcases List.mem_cons.1 (headOr_mem m2 sB) with h2 | h2
          · rw [h2] at h
            exact (List.nodup_cons.1 hndB_s_m1).1 (h ▸ hy)
          · exact hm1_m2 y hy1 (h ▸ h2)
      · exact s4
    apply (chain2_middle _ m1 sB f (seg' ++ m2) sB).2
    refine ⟨hretB, ?_⟩
    have hretSeg : chain2 (insert_before_range st (headOr m2 sB) f (headOr l2 sA))
        f seg' (headOr m2 sB) := by
      apply chain2_retarget seg' f (headOr l2 sA) (headOr m2 sB) hcSeg
      · intro y hy
        have hy1 : y ∈ f :: seg' := by
          rw [← cons_dropLast_concat seg' f]
          exact List.mem_append.2 (Or.inl hy)
        apply frame_next y
        · exact fun h => hl1_seg (lastOr l1 sA) (lastOr_mem l1 sA) (h ▸ hy1)
        · exact fun h => (hdisj y (hAm_seg y hy1)) (h ▸ dqB_mem)
        · exact fun h => lastOr_not_mem_dropLast seg' f hndA_fseg (h ▸ hy)
      · exact s5
      · intro y hy
        have hy1 : y ∈ f :: seg' := List.mem_cons_of_mem f hy
        apply frame_prev y
        · intro h
          rw [h] at hy1
          rcases List.mem_cons.1 (headOr_mem l2 sA) with h2 | h2
          · rw [h2] at hy1
            exact hl1_seg sA (List.mem_cons_self sA l1) hy1
          · exact hseg_l2 _ hy1 h2
        · exact fun h => (List.nodup_cons.1 hndA_fseg).1 (h ▸ hy)
        · exact fun h => (hdisj y (hAm_seg y hy1)) (h ▸ dpos_mem)
      · exact s6
    cases m2 with
    | nil =>
      rw [List.append_nil]
      exact hretSeg
    | cons z m2' =>
      apply (chain2_middle _ seg' f z m2' sB).2
      refine ⟨hretSeg, ?_⟩
      have hcBrest : chain2 st z m2' sB := ((chain2_middle st m1 sB z m2' sB).1 hcB).2
      apply chain2_congr m2' z sB hcBrest
      · intro y hy
        have hy2 : y ∈ z :: m2' := hy
        have hyB : y ∈ sB :: (m1 ++ z :: m2') :=
          List.mem_cons_of_mem sB (List.mem_append.2 (Or.inr hy2))
        apply frame_next y
        · exact fun h => (hdisj (lastOr l1 sA) (hAm_l1 _ (lastOr_mem l1 sA))) (h ▸ hyB)
        · exact fun h => hm1_m2 (lastOr m1 sB) (lastOr_mem m1 sB) (h ▸ hy2)
        · exact fun h => (hdisj (lastOr seg' f) (hAm_seg _ (lastOr_mem seg' f))) (h ▸ hyB)
      · intro y hy
        have hy2 : y = sB ∨ y ∈ m2' := by
          rcases List.mem_append.1 hy with h | h
          · exact Or.inr h
          · exact Or.inl (by simpa using h)
        have hyB : y ∈ sB :: (m1 ++ z :: m2') := by
          rcases hy2 with rfl | h
          · exact List.mem_cons_self _ _
          · exact List.mem_cons_of_mem sB (List.mem_append.2 (Or.inr (List.mem_cons_of_mem z h)))
        apply frame_prev y
        · exact fun h => (hdisj (headOr l2 sA) (hAm_l2 _ (headOr_mem l2 sA))) (h ▸ hyB)
        · exact fun h => (hdisj f (hAm_seg _ (List.mem_cons_self f seg'))) (h ▸ hyB)
        · show y ≠ headOr (z :: m2') sB
          intro h
          have h2 : y = z := h
          rcases hy2 with h3 | h3
          · rw [h3] at h2
            exact hm1_m2 sB (List.mem_cons_self _ _) (h2 ▸ List.mem_cons_self z m2')
          · rw [h2] at h3
            have hndm2 : (z :: m2').Nodup :=
              (List.nodup_append.1 (List.nodup_cons.1 hndB).2).2.1
            exact (List.nodup_cons.1 hndm2).1 h3
  · -- B's node list stays duplicate-free after gaining the segment
    have heq1 : sB :: (m1 ++ f :: (seg' ++ m2)) = (sB :: m1) ++ f :: (seg' ++ m2) := rfl
    rw [heq1]
    apply List.nodup_middle.2
    apply List.nodup_cons.2
    constructor
    · intro hm
      have hm2 : f ∈ sB :: (m1 ++ (seg' ++ m2)) := hm
      rcases List.mem_cons.1 hm2 with h | h
      · exact (hdisj f (hAm_seg _ (List.mem_cons_self f seg'))) (h ▸ List.mem_cons_self _ _)
      · rcases List.mem_append.1 h with h2 | h2
        · exact (hdisj f (hAm_seg _ (List.mem_cons_self f seg')))
            (List.mem_cons_of_mem sB (List.mem_append.2 (Or.inl h2)))
        · rcases List.mem_append.1 h2 with h3 | h3
          · exact (List.nodup_cons.1 hndA_fseg).1 h3
          · exact (hdisj f (hAm_seg _ (List.mem_cons_self f seg')))
              (List.mem_cons_of_mem sB (List.mem_append.2 (Or.inr h3)))
    · show ((sB :: m1) ++ (seg' ++ m2)).Nodup
      apply List.nodup_append.2
      refine ⟨hndB_s_m1, ?_, ?_⟩
      · apply List.nodup_append.2
        refine ⟨(List.nodup_cons.1 hndA_fseg).2,
          (List.nodup_append.1 (List.nodup_cons.1 hndB).2).2.1, ?_⟩
        intro y hy hym
        exact (hdisj y (hAm_seg y (List.mem_cons_of_mem f hy)))
          (List.mem_cons_of_mem sB (List.mem_append.2 (Or.inr hym)))
      · intro y hy hym
        rcases List.mem_append.1 hym with h | h
        · exact (hdisj y (hAm_seg y (List.mem_cons_of_mem f h))) (hBm_m1 y hy)
        · exact hm1_m2 y hy h

/-- The head of a nonempty list is one of its elements. -/
theorem headOr_mem_self (l : List Nat) (s : Nat) (h : l ≠ []) : headOr l s ∈ l := by
  cases l with
  | nil => exact absurd rfl h
  | cons x xs => exact List.mem_cons_self _ _

/-- List states reachable from a fresh store (every node self-looped, the
empty list) by the public `linked_list` operations: `push_front`, `push_back`,
`insert(pos, node)`, `erase(pos)`, `pop_front`, `pop_back` — restricted to
insertions of detached nodes (the node and its two link targets off the
list's own cycle).  This restriction is a modeling choice, not a code
precondition: the code silently unlinks and relinks an attached node, and
re-inserting a node before its own position corrupts the cycle (see the C9
theorem below), so the doubly-linked invariant is provable only on this
fragment. -/
inductive Reach : Store → Nat → List Nat → Prop
  | init (s : Nat) : Reach init_store s []
  | push_front_step {st : Store} {s : Nat} {l : List Nat} {n : Nat} :
      Reach st s l → n ∉ s :: l → (st n).prev_ ∉ s :: l → (st n).next_ ∉ s :: l →
      Reach (push_front st s n) s (n :: l)
  | push_back_step {st : Store} {s : Nat} {l : List Nat} {n : Nat} :
      Reach st s l → n ∉ s :: l → (st n).prev_ ∉ s :: l → (st n).next_ ∉ s :: l →
      Reach (push_back st s n) s (l ++ [n])
  | insert_step {st : Store} {s : Nat} {l1 l2 : List Nat} {n : Nat} :
      Reach st s (l1 ++ l2) → n ∉ s :: (l1 ++ l2) →
      (st n).prev_ ∉ s :: (l1 ++ l2) → (st n).next_ ∉ s :: (l1 ++ l2) →
      Reach (insert_node st (headOr l2 s) n).1 s (l1 ++ n :: l2)
  | erase_step {st : Store} {s : Nat} {l1 : List Nat} {x : Nat} {l2 : List Nat} :
      Reach st s (l1 ++ x :: l2) → Reach (erase st x).1 s (l1 ++ l2)
  | pop_front_step {st : Store} {s : Nat} {l : List Nat} :
      Reach st s l → Reach (pop_front st s) s l.tail
  | pop_back_step {st : Store} {s : Nat} {l : List Nat} :
      Reach st s l → Reach (pop_back st s) s l.dropLast

/-- Every reachable list state satisfies the representation invariant. -/
theorem Reach_rep {st : Store} {s : Nat} {l : List Nat} (h : Reach st s l) :
    rep st s l := by
  induction h with
  | init s => exact ⟨⟨rfl, rfl⟩, by simp⟩
  | push_front_step h hn hp hq ih => exact push_front_rep _ _ _ _ ih hn hp hq
  | push_back_step h hn hp hq ih =>
    have := insert_before_rep _ _ _ [] _ (by simpa using ih)
      (by simpa using hn) (by simpa using hp) (by simpa using hq)
    simpa using this
  | insert_step h hn hp hq ih => exact insert_before_rep _ _ _ _ _ ih hn hp hq
  | erase_step h ih => exact remove_rep _ _ _ _ _ ih
  | pop_front_step h ih =>
    rename_i st s l
    cases l with
    | nil =>
      have hnext : (st s).next_ = s := ih.1.1
      have hemp : lempty st s = true := by simp [lempty, hnext]
      simpa [pop_front, hemp] using ih
    | cons x xs =>
      have hnext : (st s).next_ = x := chain2_head_next st (x :: xs) s s ih.1
      have hxs : x ≠ s := fun he => (List.nodup_cons.1 ih.2).1 (he ▸ List.mem_cons_self x xs)
      have hemp : lempty st s = false := by simp [lempty, hnext, hxs]
      have hpf : pop_front st s = remove st x := by simp [pop_front, hemp, hnext]
      rw [hpf]
      simpa using remove_rep st s [] x xs (by simpa using ih)
  | pop_back_step h ih =>
    rename_i st s l
    rcases List.eq_nil_or_concat l with rfl | ⟨L, b, rfl⟩
    · have hnext : (st s).next_ = s := ih.1.1
      have hemp : lempty st s = true := by simp [lempty, hnext]
      simpa [pop_back, hemp] using ih
    · rw [List.concat_eq_append] at ih ⊢
      have hnextv : (st s).next_ = headOr (L ++ [b]) s :=
        chain2_head_next st (L ++ [b]) s s ih.1
      have hne : headOr (L ++ [b]) s ≠ s := by
        intro he
        exact (List.nodup_cons.1 ih.2).1
          (he ▸ headOr_mem_self (L ++ [b]) s (by simp))
      have hemp : lempty st s = false := by simp [lempty, hnextv, hne]
      have hprev : (st s).prev_ = b := by
        have hedge := (chain2_last_edge st (L ++ [b]) s s ih.1).2
        rw [hedge, lastOr_append]
        rfl
      have hpb : pop_back st s = remove st b := by simp [pop_back, hemp, hprev]
      rw [hpb, List.dropLast_concat]
      simpa using remove_rep st s L b [] (by simpa using ih)

/-- C8: splicing the non-empty range `[f, headOr l2 sA)` — the
`K = (f :: seg').length` nodes `f :: seg'` — out of list A into list B before
position `headOr m2 sB` via `linked_list::insert(pos, first, last)` returns the
iterator at `f`, shrinks A's `size()` by exactly K, grows B's `size()` by
exactly K, and an immediate forward traversal of B reads the original data
values with the spliced segment, in its original relative order, placed right
before `pos`; and when `first == last` the call is a no-op that returns `pos`
with the store untouched. -/
theorem C8_splice_counts (st : Store) (sA sB : Nat) (l1 : List Nat) (f : Nat)
    (seg' l2 m1 m2 : List Nat) (fuel : Nat)
    (hA : rep st sA (l1 ++ f :: (seg' ++ l2))) (hB : rep st sB (m1 ++ m2))
    (hdisj : ∀ y ∈ sA :: (l1 ++ f :: (seg' ++ l2)), y ∉ sB :: (m1 ++ m2))
    (hfA : (l1 ++ f :: (seg' ++ l2)).length ≤ fuel)
    (hfB : (m1 ++ f :: (seg' ++ m2)).length ≤ fuel) :
    (∀ (st2 : Store) (pos q : Nat), insert_range st2 pos q q = (st2, pos)) ∧
    (insert_range st (headOr m2 sB) f (headOr l2 sA)).2 = f ∧
    size st sA fuel = some ((l1 ++ f :: (seg' ++ l2)).length) ∧
    size st sB fuel = some ((m1 ++ m2).length) ∧
    size (insert_range st (headOr m2 sB) f (headOr l2 sA)).1 sA fuel
      = some ((l1 ++ l2).length) ∧
    size (insert_range st (headOr m2 sB) f (headOr l2 sA)).1 sB fuel
      = some ((m1 ++ f :: (seg' ++ m2)).length) ∧
    (l1 ++ f :: (seg' ++ l2)).length = (l1 ++ l2).length + (f :: seg').length ∧
    (m1 ++ f :: (seg' ++ m2)).length = (m1 ++ m2).length + (f :: seg').length ∧
    to_list (insert_range st (headOr m2 sB) f (headOr l2 sA)).1 sB
        (((insert_range st (headOr m2 sB) f (headOr l2 sA)).1 sB).next_) fuel
      = some ((m1 ++ f :: (seg' ++ m2)).map (fun i => (st i).data_)) := by
  have hsA_not : sA ∉ l1 ++ f :: (seg' ++ l2) := (List.nodup_cons.1 hA.2).1
  have hnd_l : (l1 ++ f :: (seg' ++ l2)).Nodup := (List.nodup_cons.1 hA.2).2
  have hf_not : f ∉ seg' ++ l2 :=
    (List.nodup_cons.1 (List.nodup_append.1 hnd_l).2.1).1
  have hfne : f ≠ headOr l2 sA := by
    intro h
    rcases List.mem_cons.1 (headOr_mem l2 sA) with h2 | h2
    · exact hsA_not ((h.trans h2) ▸ List.mem_append.2
        (Or.inr (List.mem_cons_self f (seg' ++ l2))))
    · exact hf_not (List.mem_append.2 (Or.inr (h ▸ h2)))
  have hir : insert_range st (headOr m2 sB) f (headOr l2 sA)
      = (insert_before_range st (headOr m2 sB) f (headOr l2 sA), f) := by
    simp [insert_range, hfne]
  obtain ⟨hrA, hrB, hdata⟩ := splice_rep st sA sB l1 f seg' l2 m1 m2 hA hB hdisj
  refine ⟨?_, ?_, ?_, ?_, ?_, ?_, ?_, ?_, ?_⟩
  · intro st2 pos q
    simp [insert_range]
  · rw [hir]
  · exact size_rep st sA _ hA fuel hfA
  · exact size_rep st sB _ hB fuel
      (le_trans (by simp only [List.length_append, List.length_cons]; omega) hfB)
  · rw [hir]
    exact size_rep _ sA _ hrA fuel
      (le_trans (by simp only [List.length_append, List.length_cons]; omega) hfA)
  · rw [hir]
    exact size_rep _ sB _ hrB fuel hfB
  · simp only [List.length_append, List.length_cons]
    omega
  · simp only [List.length_append, List.length_cons]
    omega
  · rw [hir]
    have ht := to_list_rep _ sB _ hrB fuel hfB
    have hfun : (fun i => ((insert_before_range st (headOr m2 sB) f (headOr l2 sA)) i).data_)
        = fun i => (st i).data_ := funext hdata
    rw [hfun] at ht
    exact ht

/-- Concrete two-list scenario exercising the splice: list A (sentinel 0)
holds nodes 1, 2, 3, 4; list B (sentinel 10) holds nodes 11, 12. -/
def w8st : Store :=
  push_back (push_back (push_back (push_back (push_back (push_back
    init_store 0 1) 0 2) 0 3) 0 4) 10 11) 10 12

theorem C8_splice_counts_witness :
    (∀ (st2 : Store) (pos q : Nat), insert_range st2 pos q q = (st2, pos)) ∧
    (insert_range w8st 12 2 4).2 = 2 ∧
    size w8st 0 10 = some 4 ∧
    size w8st 10 10 = some 2 ∧
    size (insert_range w8st 12 2 4).1 0 10 = some 2 ∧
    size (insert_range w8st 12 2 4).1 10 10 = some 4 ∧
    (4 : Nat) = 2 + 2 ∧
    (4 : Nat) = 2 + 2 ∧
    to_list (insert_range w8st 12 2 4).1 10 (((insert_range w8st 12 2 4).1 10).next_) 10
      = some (([11] ++ 2 :: ([3] ++ [12])).map (fun i => (w8st i).data_)) :=
  C8_splice_counts w8st 0 10 [1] 2 [3] [4] [11] [12] 10
    (by decide) (by decide) (by decide) (by decide) (by decide)

/-- On the detached-insert fragment the invariant does hold: in every list
state generated by `Reach`, every node N on the list — the sentinel
included — satisfies `N.next_->prev_ == N` and `N.prev_->next_ == N`.  This
locates the C9 failure precisely at re-insertion of attached nodes. -/
theorem Reach_doubly_linked (st : Store) (s : Nat) (l : List Nat)
    (h : Reach st s l) :
    ∀ n ∈ s :: l, (st ((st n).next_)).prev_ = n ∧ (st ((st n).prev_)).next_ = n :=
  rep_doubly_linked st s l (Reach_rep h)

/-- Concrete list built by `push_front` then `push_back` on a fresh store:
sentinel 0, nodes 1, 2. -/
def w9st : Store := push_back (push_front init_store 0 1) 0 2

theorem Reach_doubly_linked_example :
    ((w9st ((w9st 0).next_)).prev_ = 0 ∧ (w9st ((w9st 0).prev_)).next_ = 0) ∧
    ((w9st ((w9st 1).next_)).prev_ = 1 ∧ (w9st ((w9st 1).prev_)).next_ = 1) ∧
    ((w9st ((w9st 2).next_)).prev_ = 2 ∧ (w9st ((w9st 2).prev_)).next_ = 2) := by
  have h1 : Reach (push_front init_store 0 1) 0 [1] :=
    Reach.push_front_step (Reach.init 0) (by decide) (by decide) (by decide)
  have h2 : Reach w9st 0 [1, 2] :=
    Reach.push_back_step h1 (by decide) (by decide) (by decide)
  exact ⟨Reach_doubly_linked w9st 0 [1, 2] h2 0 (by decide),
    Reach_doubly_linked w9st 0 [1, 2] h2 1 (by decide),
    Reach_doubly_linked w9st 0 [1, 2] h2 2 (by decide)⟩

/-- C9: the claim — after any sequence of push_front, push_back, pop_front,
pop_back, insert, and erase, every reachable node N satisfies
`N.next_->prev_ == N` and `N.prev_->next_ == N` — fails.  Push node 1 onto an
empty list (sentinel 0), a well-formed one-element list whose `begin()` is
node 1, then call `insert(begin(), node 1)`, re-inserting the attached node
before its own position (defined behavior: `insert_before` silently
`unlink()`s an attached node first).  Afterwards the sentinel has
`next_ == 1` while node 1 has `prev_ == 1` and `next_ == 1`: the node is
self-looped yet entered from the sentinel, so `N.next_->prev_ == N` fails at
the sentinel and the cycle never returns to it. -/
theorem C9_insert_attached_breaks_invariant :
    rep (push_back init_store 0 1) 0 [1] ∧
    ((push_back init_store 0 1) 0).next_ = 1 ∧
    ((insert_node (push_back init_store 0 1) 1 1).1 0).next_ = 1 ∧
    ((insert_node (push_back init_store 0 1) 1 1).1 1).prev_ = 1 ∧
    ((insert_node (push_back init_store 0 1) 1 1).1 1).next_ = 1 ∧
    ¬ ((insert_node (push_back init_store 0 1) 1 1).1
        (((insert_node (push_back init_store 0 1) 1 1).1 0).next_)).prev_ = 0 := by
  decide

/-- C10: `pop_front()` and `pop_back()` on an empty list are safe no-ops: the
`if (empty()) { return nullptr; }` guard fires before any link is touched, so
the store — in particular the sentinel's links — is left exactly unchanged. -/
theorem C10_pop_empty_noop (st : Store) (s : Nat) (h : lempty st s = true) :
    pop_front st s = st ∧ pop_back st s = st := by
  constructor
  · simp [pop_front, h]
  · simp [pop_back, h]

theorem C10_pop_empty_noop_witness :
    pop_front init_store 0 = init_store ∧ pop_back init_store 0 = init_store :=
  C10_pop_empty_noop init_store 0 (by decide)

end LList
